import Mathlib

/-!
# Linear memory allocator (allocator_VMachado.cpp)

A shallow embedding of `allocator_VMachado.cpp`: the classes `Process`,
`LinkedList` and `Memory` of the allocation table, and the class `Allocator`
with `parseUserInput`, `validateArguments` and the command loop of `run`.

Conventions of the embedding.

* The C++ type `int` is embedded as `Int`.  The width of `int` is visible in
  the source through the constant `INT_MAX` used by `findSpotInList` and
  through the range of `std::stoi`; `INT_MAX` is kept as the 32-bit value
  `2147483647`.  Signed overflow is undefined in C++, so statements that
  depend on `INT_MAX` carry the hypothesis that the capacity is itself an
  `int`.
* The singly linked chain `head -> next -> ... -> NULL` is embedded as a
  `List Process`; the field `next` is the tail of the list.
* Dereferencing `NULL` is embedded as the result `none`, and so is the end
  of the run on an exception that is not caught.
* A `std::string` is embedded as a `String`, one `Char` for each `char`; what
  the program prints is not embedded, the report of `toString` apart.
-/

/-! ## The program -/

/-- The largest value of the C++ type `int` (32 bits). -/
def INT_MAX : Int := 2147483647

/-- Class `Process`: the instance data `processNumber`, `size`, `firstByte`,
`lastByte`.  The pointer `next` is the tail of the list the process is in. -/
structure Process where
  processNumber : String
  size : Int
  firstByte : Int
  lastByte : Int
deriving DecidableEq, Repr

/-- Constructor `Process(num, s)`: both bytes start at 0. -/
def Process.new (num : String) (s : Int) : Process :=
  { processNumber := num, size := s, firstByte := 0, lastByte := 0 }

/-- Class `LinkedList`: the chain starting at `head`, and the tracker `number`. -/
structure LinkedList where
  head : List Process
  number : Int
deriving DecidableEq, Repr

/-- Constructor `LinkedList()`: `head = NULL`, `number = 0`. -/
def LinkedList.empty : LinkedList := { head := [], number := 0 }

/-- The loop `while (tracker != position - 1) traverse = traverse->next` of
`addProcessToList` followed by the four assignments that link `p` behind
`traverse`.  The second argument is the chain starting at `traverse`, the
third the number of hops still to make.  `none`: `traverse` is `NULL` when it
is dereferenced. -/
def LinkedList.linkAfter (p : Process) : List Process → Nat → Option (List Process)
  | [], _ => none
  | t :: rest, 0 =>
      some (t :: { p with firstByte := t.lastByte + 1,
                          lastByte := t.lastByte + 1 + p.size - 1 } :: rest)
  | t :: rest, k + 1 => (LinkedList.linkAfter p rest k).map (fun r => t :: r)

/-- Method `LinkedList::addProcessToList(Process * p, int position)`.
`p = none` is the `NULL` process, which is rejected.  For a negative
`position` the loop counter, which starts at 0 and counts up, does not meet
`position - 1` before `traverse` leaves the chain. -/
def LinkedList.addProcessToList (l : LinkedList) (p : Option Process) (position : Int) :
    Option LinkedList :=
  match p with
  | none => some l
  | some p =>
    if position = 0 then
      some { l with head := { p with firstByte := 0, lastByte := p.size - 1 } :: l.head }
    else if position < 0 then
      none
    else
      (LinkedList.linkAfter p l.head (position - 1).toNat).map
        (fun ps => { head := ps, number := l.number + 1 })

/-- The search loop of `removeProcessByNumber` on the chain starting at
`traverse`: the size of the first process named `procNum` and the chain with
that process unlinked, or `none` when the loop reaches `NULL`. -/
def LinkedList.unlinkFirst (procNum : String) : List Process → Option (Int × List Process)
  | [] => none
  | t :: rest =>
      if procNum = t.processNumber then some (t.size, rest)
      else (LinkedList.unlinkFirst procNum rest).map (fun r => (r.1, t :: r.2))

/-- Method `LinkedList::removeProcessByNumber(std::string procNum, bool deleteProcess)`:
the returned `int` and the list afterwards.  With `deleteProcess` the source
reads `traverse->size` after `delete traverse`; the embedding returns the
value the node held. -/
def LinkedList.removeProcessByNumber (l : LinkedList) (procNum : String)
    (deleteProcess : Bool) : Int × LinkedList :=
  match LinkedList.unlinkFirst procNum l.head with
  | some (sz, ps) =>
      if deleteProcess then (sz, { head := ps, number := l.number - 1 })
      else (sz, { head := ps, number := l.number - 1 })
  | none => (-1, l)

/-- The loop `while (trav != NULL)` of `findSpotInList` on the chain starting
at `trav`, with the current values of `counter`, `winner` and `leftGap`;
returns the final `winner` and `leftGap`. -/
def LinkedList.scanGaps (size max : Int) : List Process → Int → Int → Int → Int × Int
  | [], _, winner, leftGap => (winner, leftGap)
  | [t], counter, winner, leftGap =>
      let tempGap := max - t.lastByte
      if tempGap ≥ size ∧ tempGap - size < leftGap then
        LinkedList.scanGaps size max [] (counter + 1) counter (tempGap - size)
      else
        LinkedList.scanGaps size max [] (counter + 1) winner leftGap
  | t :: n :: rest, counter, winner, leftGap =>
      if t.lastByte < n.firstByte - 1 then
        let tempGap := n.firstByte - t.lastByte - 1
        if tempGap ≥ size ∧ tempGap - size < leftGap then
          LinkedList.scanGaps size max (n :: rest) (counter + 1) counter (tempGap - size)
        else
          LinkedList.scanGaps size max (n :: rest) (counter + 1) winner leftGap
      else
        LinkedList.scanGaps size max (n :: rest) (counter + 1) winner leftGap

/-- Method `LinkedList::findSpotInList(int size, int max)`. -/
def LinkedList.findSpotInList (l : LinkedList) (size max : Int) : Int :=
  match l.head with
  | [] => if size ≤ max + 1 then 0 else -1
  | trav :: rest =>
      let start : Int × Int :=
        if trav.firstByte ≠ 0 ∧ trav.firstByte ≥ size then (0, trav.firstByte - size)
        else (-1, INT_MAX)
      (LinkedList.scanGaps size max (trav :: rest) 1 start.1 start.2).1

/-- One line of the report of `LinkedList::toString`:
`Address [ first : last ] Free` or `Address [ first : last ] Process name`. -/
inductive Span where
  | free (first last : Int)
  | process (first last : Int) (name : String)
deriving DecidableEq, Repr

/-- First address of a report line. -/
def Span.first : Span → Int
  | .free a _ => a
  | .process a _ _ => a

/-- Last address of a report line. -/
def Span.last : Span → Int
  | .free _ b => b
  | .process _ b _ => b

/-- Whether a report line is labelled `Free`. -/
def Span.isFree : Span → Bool
  | .free _ _ => true
  | .process _ _ _ => false

/-- Method `Process::toString`: the line of one process. -/
def Process.toString (p : Process) : Span :=
  Span.process p.firstByte p.lastByte p.processNumber

/-- The loop `while (traverse != NULL)` of `LinkedList::toString` on the chain
starting at `traverse` with the current `delimiter`, and the closing test
`delimiter != max + 1`. -/
def LinkedList.printFrom (max : Int) : List Process → Int → List Span
  | [], delimiter => if delimiter ≠ max + 1 then [Span.free delimiter max] else []
  | t :: rest, delimiter =>
      if t.firstByte = delimiter then
        t.toString :: LinkedList.printFrom max rest (t.lastByte + 1)
      else
        Span.free delimiter (t.firstByte - 1) :: t.toString ::
          LinkedList.printFrom max rest (t.lastByte + 1)

/-- Method `LinkedList::toString(int max)`, as the list of its lines. -/
def LinkedList.toString (l : LinkedList) (max : Int) : List Span :=
  match l.head with
  | [] => [Span.free 0 max]
  | t :: rest => LinkedList.printFrom max (t :: rest) 0

/-- The loop `while (trav != NULL)` of `compactProcesses` on the chain
starting at `trav` with the current `nextFirst`. -/
def LinkedList.shiftFrom : List Process → Int → List Process
  | [], _ => []
  | t :: rest, nextFirst =>
      let t1 := { t with firstByte := nextFirst }
      let t2 := { t1 with lastByte := t1.size + t1.firstByte - 1 }
      t2 :: LinkedList.shiftFrom rest (t2.lastByte + 1)

/-- Method `LinkedList::compactProcesses(int lastByte)`; the parameter is not
used by the source. -/
def LinkedList.compactProcesses (l : LinkedList) (_lastByte : Int) : LinkedList :=
  match l.head with
  | [] => l
  | t :: rest =>
      let t1 := { t with firstByte := 0 }
      let t2 := { t1 with lastByte := t1.size + t1.firstByte - 1 }
      { l with head := t2 :: LinkedList.shiftFrom rest (t2.lastByte + 1) }

/-- Class `Memory`: the list of processes and the last address `max`. -/
structure Memory where
  processes : LinkedList
  max : Int
deriving DecidableEq, Repr

/-- Constructor `Memory(int m)`. -/
def Memory.new (m : Int) : Memory := { processes := LinkedList.empty, max := m }

/-- Method `Memory::findMemorySlot`. -/
def Memory.findMemorySlot (m : Memory) (sizeRequired : Int) : Int :=
  m.processes.findSpotInList sizeRequired m.max

/-- Method `Memory::toString`. -/
def Memory.toString (m : Memory) : List Span :=
  m.processes.toString m.max

/-- Method `Memory::addProcessToMemory`. -/
def Memory.addProcessToMemory (m : Memory) (p : Option Process) (place : Int) : Option Memory :=
  (m.processes.addProcessToList p place).map (fun l => { m with processes := l })

/-- Method `Memory::removeProcessFromMemory`: the returned `bool` and the
memory afterwards. -/
def Memory.removeProcessFromMemory (m : Memory) (procName : String) : Bool × Memory :=
  let r := m.processes.removeProcessByNumber procName false
  if r.1 < 0 then (false, { m with processes := r.2 })
  else (true, { m with processes := r.2 })

/-- Method `Memory::compactMemory`. -/
def Memory.compactMemory (m : Memory) (lastByte : Int) : Memory :=
  { m with processes := m.processes.compactProcesses lastByte }

/-- The `else` branch of the `RQ` command in `Allocator::run` (the request has
a positive integer size): `findMemorySlot`, then `addProcessToMemory` of a new
process unless the slot is -1. -/
def Allocator.allocate (memory : Memory) (name : String) (size : Int) : Option Memory :=
  let slot := memory.findMemorySlot size
  if slot = -1 then some memory
  else memory.addProcessToMemory (some (Process.new name size)) slot

/-- The three commands of `Allocator::run` that reach the table with a change:
`RQ name size B`, `RL name` and `C`. -/
inductive Op where
  | allocate (owner : String) (size : Int)
  | release (owner : String)
  | compact
deriving DecidableEq, Repr

/-- The effect of one command on the memory, as dispatched by `Allocator::run`;
`compactMemory` is called with `upperBound`, which is `max`. -/
def Allocator.apply (memory : Memory) : Op → Option Memory
  | .allocate owner size => Allocator.allocate memory owner size
  | .release owner => some (memory.removeProcessFromMemory owner).2
  | .compact => some (memory.compactMemory memory.max)

/-- A sequence of commands served one after the other. -/
def Allocator.runOps (memory : Memory) : List Op → Option Memory
  | [] => some memory
  | op :: ops => (Allocator.apply memory op).bind (fun m => Allocator.runOps m ops)

/-! ### Strings, the command line and the loop of `Allocator::run`

A `std::string` is embedded as a `String`, one `Char` for each `char`. -/

/-- The character `'\0'` that ends a C string; `userInput[userInput.size()]`
is this character. -/
def NUL : Char := Char.ofNat 0

/-- The C string `s.c_str()` as the C library reads it: the characters before
the first `'\0'`. -/
def c_str (s : String) : List Char := s.toList.takeWhile (fun c => c != NUL)

/-- The test `strcmp(s.c_str(), literal) == 0`. -/
def strcmp0 (s literal : String) : Bool := decide (c_str s = c_str literal)

/-- The test `x == ' ' || x == '\t'` of `parseUserInput`. -/
def isBlank (x : Char) : Bool := x == ' ' || x == '\t'

/-- The loops `while ((x == ' ' || x == '\t') && place < userInput.size() + 1)
x = userInput[place++];` of `parseUserInput`.  The argument is the input
from the current `x` on, with the `'\0'` at `userInput[size]` as its last
element; `place < userInput.size() + 1` holds as long as a character follows
`x` in it. -/
def Allocator.skipBlanks : List Char → List Char
  | x :: y :: rest =>
      if isBlank x then Allocator.skipBlanks (y :: rest) else x :: y :: rest
  | r => r

/-- The loops `while (x != ' ' && x != '\t' && place < userInput.size() + 1)
{ result[i] += x; x = userInput[place++]; }` of `parseUserInput`: the
characters added to `result[i]`, and the input from the final `x` on. -/
def Allocator.readEntry : List Char → List Char × List Char
  | x :: y :: rest =>
      if isBlank x then ([], x :: y :: rest)
      else ((x :: (Allocator.readEntry (y :: rest)).1), (Allocator.readEntry (y :: rest)).2)
  | r => ([], r)

/-- Method `Allocator::parseUserInput`: the array of four strings, as a list
of length 4. -/
def Allocator.parseUserInput (userInput : String) : List String :=
  let e0 := Allocator.readEntry (Allocator.skipBlanks (userInput.toList ++ [NUL]))
  let r0 := String.mk e0.1
  if strcmp0 r0 "STAT" || strcmp0 r0 "C" || strcmp0 r0 "QUIT" || strcmp0 r0 "HELP" then
    [r0, "", "", ""]
  else
    let e1 := Allocator.readEntry (Allocator.skipBlanks e0.2)
    if strcmp0 r0 "RL" then
      [r0, String.mk e1.1, "", ""]
    else
      let e2 := Allocator.readEntry (Allocator.skipBlanks e1.2)
      let e3 := Allocator.readEntry (Allocator.skipBlanks e2.2)
      [r0, String.mk e1.1, String.mk e2.1, String.mk e3.1]

/-- The outcomes of the library function `std::stoi`: the parsed `int`, or
one of its two exceptions. -/
inductive StoiResult where
  | value (n : Int)
  | invalid_argument
  | out_of_range
deriving DecidableEq, Repr

/-- The library predicate `isspace` in the C locale. -/
def isspace (c : Char) : Bool :=
  c == ' ' || c == '\t' || c == '\n' || c == Char.ofNat 11 || c == Char.ofNat 12 || c == '\r'

/-- The number written by a run of decimal digits. -/
def digitsValue (ds : List Char) : Nat :=
  ds.foldl (fun a d => 10 * a + (d.toNat - 48)) 0

/-- The library function `std::stoi(str)` (base 10) as the C++ standard
defines it through `strtol`: leading white space is skipped, an optional
sign is read, then the longest run of decimal digits; whatever follows the
digits is ignored.  No digit: `invalid_argument`; a value that is not an
`int`: `out_of_range`. -/
def stoi (str : String) : StoiResult :=
  let s := (c_str str).dropWhile isspace
  let body : Bool × List Char :=
    match s with
    | '-' :: r => (true, r)
    | '+' :: r => (false, r)
    | r => (false, r)
  let ds := body.2.takeWhile Char.isDigit
  if ds = [] then StoiResult.invalid_argument
  else
    let v : Int := if body.1 then -(digitsValue ds : Int) else (digitsValue ds : Int)
    if v < -INT_MAX - 1 ∨ INT_MAX < v then StoiResult.out_of_range
    else StoiResult.value v

/-- Method `Allocator::validateArguments(int count, char ** values)`.
`none`: the run ends abnormally, on the `std::out_of_range` of `stoi`, which
is not caught, or on reading a `values[1]` that is not there. -/
def Allocator.validateArguments (count : Int) (values : List String) : Option Int :=
  if count = 1 then some (-1)
  else
    match values[1]? with
    | none => none
    | some arg =>
        if strcmp0 arg "-help" then some (-2)
        else
          match stoi arg with
          | StoiResult.invalid_argument => some (-1)
          | StoiResult.out_of_range => none
          | StoiResult.value input => if input > 1048576 then some input else some 1048576

/-- The part of `Allocator::run` before the loop: the memory `Memory
memory(--upperBound)` with which the loop is entered, or `none` when `run`
returns -1 (or ends abnormally) before the loop. -/
def Allocator.initialMemory (count : Int) (values : List String) : Option Memory :=
  match Allocator.validateArguments count values with
  | none => none
  | some upperBound =>
      if upperBound = -1 then none
      else if upperBound = -2 then none
      else some (Memory.new (upperBound - 1))

/-- One pass of the loop `while (!done)` of `Allocator::run` on the input line
`userInput`: the memory afterwards and the value of `done`.  `none`: the run
ends abnormally (the `std::out_of_range` of `stoi` is not caught, or a `NULL`
is dereferenced).  What is printed is not part of the embedding. -/
def Allocator.serve (memory : Memory) (userInput : String) : Option (Memory × Bool) :=
  let result := Allocator.parseUserInput userInput
  if strcmp0 (result.getD 0 "") "RQ" then
    if result.getD 3 "" = "B" then
      match stoi (result.getD 2 "") with
      | StoiResult.invalid_argument => some (memory, false)
      | StoiResult.out_of_range => none
      | StoiResult.value size =>
          if size ≤ 0 then some (memory, false)
          else (Allocator.allocate memory (result.getD 1 "") size).map (fun m => (m, false))
    else some (memory, false)
  else if strcmp0 (result.getD 0 "") "HELP" then some (memory, false)
  else if strcmp0 (result.getD 0 "") "RL" then
    some ((memory.removeProcessFromMemory (result.getD 1 "")).2, false)
  else if strcmp0 (result.getD 0 "") "C" then
    some (memory.compactMemory memory.max, false)
  else if strcmp0 (result.getD 0 "") "STAT" then some (memory, false)
  else if strcmp0 (result.getD 0 "") "QUIT" then some (memory, true)
  else some (memory, false)

/-- The loop `while (!done)` of `Allocator::run` on the input lines in the
order they are entered: the memory when the lines are used up or `done` is
set. -/
def Allocator.serveAll (memory : Memory) : List String → Option Memory
  | [] => some memory
  | line :: lines =>
      match Allocator.serve memory line with
      | none => none
      | some (m, done) => if done then some m else Allocator.serveAll m lines

/-! ## The data model of the specification -/

/-- Region field constraint of the data model: every region has `size ≥ 1`. -/
def Sized (ps : List Process) : Prop := ∀ r ∈ ps, 1 ≤ r.size

/-- Invariant 1: any two distinct regions are disjoint. -/
def NonOverlap (ps : List Process) : Prop :=
  ps.Pairwise (fun a b => a.lastByte < b.firstByte ∨ b.lastByte < a.firstByte)

/-- Invariant 2: every region lies within `[0, capacity - 1]`. -/
def InBounds (capacity : Int) (ps : List Process) : Prop :=
  ∀ r ∈ ps, 0 ≤ r.firstByte ∧ r.lastByte ≤ capacity - 1

/-- Invariant 3: the list order is strictly ascending in `firstByte`. -/
def Ascending (ps : List Process) : Prop :=
  ps.Pairwise (fun a b => a.firstByte < b.firstByte)

/-- Invariant 4: `size = lastByte - firstByte + 1` for every region. -/
def SizeExact (ps : List Process) : Prop :=
  ∀ r ∈ ps, r.size = r.lastByte - r.firstByte + 1

/-- A table of the data model: regions of size at least 1 that satisfy
invariants 1 to 4 for the given capacity. -/
def TableInv (capacity : Int) (ps : List Process) : Prop :=
  Sized ps ∧ NonOverlap ps ∧ InBounds capacity ps ∧ Ascending ps ∧ SizeExact ps

instance (ps : List Process) : Decidable (Sized ps) := by unfold Sized; infer_instance
instance (ps : List Process) : Decidable (NonOverlap ps) := by unfold NonOverlap; infer_instance
instance (c : Int) (ps : List Process) : Decidable (InBounds c ps) := by
  unfold InBounds; infer_instance
instance (ps : List Process) : Decidable (Ascending ps) := by unfold Ascending; infer_instance
instance (ps : List Process) : Decidable (SizeExact ps) := by unfold SizeExact; infer_instance
instance (c : Int) (ps : List Process) : Decidable (TableInv c ps) := by
  unfold TableInv; infer_instance

/-- The size of the free gap at insertion position `p` of the region sequence
`ps` with last address `max`, in the words of the specification: position 0
is the gap before the first region (the whole space when there is no region),
position `p` with `0 < p < n` the gap between regions `p - 1` and `p`, and
position `n` the gap after the last region up to `max`. -/
def gapSize (ps : List Process) (max : Int) : Nat → Int
  | 0 =>
      match ps with
      | [] => max + 1
      | t :: _ => t.firstByte
  | k + 1 =>
      match ps[k]?, ps[k + 1]? with
      | some a, some b => b.firstByte - a.lastByte - 1
      | some a, none => max - a.lastByte
      | none, _ => 0

/-- The first address of the free gap at insertion position `p`: 0 for the
gap before the first region, otherwise the address after region `p - 1`. -/
def gapStart (ps : List Process) : Nat → Int
  | 0 => 0
  | k + 1 =>
      match ps[k]? with
      | some a => a.lastByte + 1
      | none => 0

/-- Every address lies in exactly one span of the report. -/
def CoversOnce (spans : List Span) (a : Int) : Prop :=
  spans.countP (fun s => decide (s.first ≤ a ∧ a ≤ s.last)) = 1

/-- The report `spans` is an exact partition of `[0, max]`: the first span
starts at 0, each following span starts right after the previous one ends,
the last span ends at `max`, and every address of `[0, max]` lies in exactly
one span. -/
def ExactPartition (spans : List Span) (max : Int) : Prop :=
  spans.head?.map Span.first = some 0 ∧
  spans.Chain' (fun s u => u.first = s.last + 1) ∧
  spans.getLast?.map Span.last = some max ∧
  ∀ a : Int, 0 ≤ a → a ≤ max → CoversOnce spans a

/-- A command of the sequence is valid: a request has a size of at least 1. -/
def ValidOp : Op → Prop
  | .allocate _ size => 1 ≤ size
  | .release _ => True
  | .compact => True

instance (op : Op) : Decidable (ValidOp op) := by
  cases op <;> unfold ValidOp <;> infer_instance

/-- The sum of the sizes of the first `i` regions of `ps`: the address at
which region `i` starts once the regions are packed from byte 0. -/
def sizesBefore (ps : List Process) (i : Nat) : Int :=
  ((ps.take i).map Process.size).sum

/-- A run of spaces and tabs, possibly empty. -/
def IsBlankRun (b : List Char) : Prop := ∀ c ∈ b, isBlank c = true

/-- A token of an input line: a non-empty string without space or tab. -/
def IsToken (t : List Char) : Prop := t ≠ [] ∧ ∀ c ∈ t, isBlank c = false

/-- The part of an input line behind its first token: each further token
with the run of blanks before it, then the trailing blanks. -/
def layoutRest : List (List Char × List Char) → List Char → List Char
  | [], trail => trail
  | p :: more, trail => p.1 ++ p.2 ++ layoutRest more trail

/-- An input line made of the leading blanks `lead`, the first token `t0`,
the further tokens `more` (each with the blanks before it) and the trailing
blanks `trail`. -/
def layoutLine (lead t0 : List Char) (more : List (List Char × List Char))
    (trail : List Char) : String :=
  String.mk (lead ++ t0 ++ layoutRest more trail)

/-- The parts of `layoutLine` are as the name says: the tokens are tokens,
they are separated by non-empty runs of spaces and tabs, and what leads and
trails are runs of spaces and tabs. -/
def WellSpaced (lead t0 : List Char) (more : List (List Char × List Char))
    (trail : List Char) : Prop :=
  IsBlankRun lead ∧ IsToken t0 ∧
    (∀ p ∈ more, IsBlankRun p.1 ∧ p.1 ≠ [] ∧ IsToken p.2) ∧ IsBlankRun trail

instance (b : List Char) : Decidable (IsBlankRun b) := by unfold IsBlankRun; infer_instance
instance (t : List Char) : Decidable (IsToken t) := by unfold IsToken; infer_instance
instance (lead t0 : List Char) (more : List (List Char × List Char)) (trail : List Char) :
    Decidable (WellSpaced lead t0 more trail) := by unfold WellSpaced; infer_instance

/-- The tokens of `layoutLine lead t0 more trail`, in order. -/
def tokensOf (t0 : List Char) (more : List (List Char × List Char)) : List String :=
  String.mk t0 :: more.map (fun p => String.mk p.2)

/-- The number of tokens a command consumes: 1 for `STAT`, `C`, `QUIT` and
`HELP`, 2 for `RL`, 4 otherwise. -/
def consumed (first : String) : Nat :=
  if first = "STAT" ∨ first = "C" ∨ first = "QUIT" ∨ first = "HELP" then 1
  else if first = "RL" then 2
  else 4

/-- The array of four entries for a line with the tokens `toks`: the tokens
the command consumes, then empty strings. -/
def expectedEntries (toks : List String) : List String :=
  (toks.take (consumed (toks.headD "")) ++ ["", "", "", ""]).take 4

/-- The Free span of the gap at insertion position `q`: from the first
address of the gap, as many addresses as the gap is long. -/
def gapSpan (ps : List Process) (max : Int) (q : Nat) : Span :=
  Span.free (gapStart ps q) (gapStart ps q + gapSize ps max q - 1)

/-- One Free span for each maximal free gap of the table, in address order:
the gaps at the positions `0 .. n` that are not empty. -/
def expectedFreeSpans (ps : List Process) (max : Int) : List Span :=
  ((List.range (ps.length + 1)).filter (fun q => decide (0 < gapSize ps max q))).map
    (gapSpan ps max)

/-- Position `q` is the best fit for `size` with the tie-break of the
specification: its gap holds `size`, no gap that holds `size` has a smaller
leftover, and every gap that holds `size` with the same leftover is at a
position and at an address that are not lower. -/
def BestFitAt (ps : List Process) (max size : Int) (q : Nat) : Prop :=
  q ≤ ps.length ∧ size ≤ gapSize ps max q ∧
  (∀ j : Nat, j ≤ ps.length → size ≤ gapSize ps max j →
    gapSize ps max q - size ≤ gapSize ps max j - size) ∧
  (∀ j : Nat, j ≤ ps.length → size ≤ gapSize ps max j →
    gapSize ps max j - size = gapSize ps max q - size →
    q ≤ j ∧ gapStart ps q ≤ gapStart ps j)

/-! ## Auxiliary definitions for the proofs -/

/-- The regions of a chain lie one after the other above `lo` and below `max`,
each with a size of at least 1 that matches its bounds. -/
def ChainFrom (max : Int) : Int → List Process → Prop
  | lo, [] => lo ≤ max + 1
  | lo, t :: rest =>
      lo ≤ t.firstByte ∧ 1 ≤ t.size ∧ t.size = t.lastByte - t.firstByte + 1 ∧
        ChainFrom max (t.lastByte + 1) rest

/-- The gaps behind each region of a chain, in list order: up to the next
region, and up to `max` behind the last one. -/
def gapsBehind (max : Int) : List Process → List Int
  | [] => []
  | [t] => [max - t.lastByte]
  | t :: n :: rest => (n.firstByte - t.lastByte - 1) :: gapsBehind max (n :: rest)

/-- All free gaps of a table in traversal order. -/
def freeGaps (ps : List Process) (max : Int) : List Int :=
  match ps with
  | [] => [max + 1]
  | t :: rest => t.firstByte :: gapsBehind max (t :: rest)

/-- Best fit over a list of gap sizes: the position and leftover of the
first gap with the least leftover among those that hold `size`. -/
def bestFit (size : Int) : List Int → Int → Int → Int → Int × Int
  | [], _, winner, leftGap => (winner, leftGap)
  | x :: xs, counter, winner, leftGap =>
      if x ≥ size ∧ x - size < leftGap then bestFit size xs (counter + 1) counter (x - size)
      else bestFit size xs (counter + 1) winner leftGap

/-- The region that `addProcessToList` links in at position `i` for a new
process of the given owner and size. -/
def placed (ps : List Process) (owner : String) (size : Int) (i : Nat) : Process :=
  { processNumber := owner, size := size, firstByte := gapStart ps i,
    lastByte := gapStart ps i + size - 1 }

/-- The spans tile `[lo, hi]`: each is non-empty and starts where the
previous one stopped. -/
def Tiles (hi : Int) : Int → List Span → Prop
  | lo, [] => lo = hi + 1
  | lo, s :: rest => s.first = lo ∧ s.first ≤ s.last ∧ Tiles hi (s.last + 1) rest

/-- The input from `x` on where a loop that reads an entry stops at once:
`x` is the closing `'\0'`, or `x` is a space or tab. -/
def Stops (rest : List Char) : Prop :=
  rest.length = 1 ∨ ∃ x tl, rest = x :: tl ∧ isBlank x = true

/-- Entry `i ≥ 1` that is read from a line with the further tokens `more`:
token `i` of the line, or nothing when the line has no such token. -/
def furtherToken (more : List (List Char × List Char)) (i : Nat) : String :=
  String.mk ((more.map Prod.snd).getD i [])

/-- The gaps met by `toString` from the delimiter `d` on, each as its first
address and its length: before each region of the chain, and behind the
last one up to `max`. -/
def gapsFrom (max : Int) : Int → List Process → List (Int × Int)
  | d, [] => [(d, max + 1 - d)]
  | d, t :: rest => (d, t.firstByte - d) :: gapsFrom max (t.lastByte + 1) rest

/-! ## Sample tables -/

/-- A fragmented table of capacity 12: regions `[2,4]`, `[5,6]` and `[8,8]`. -/
def sampleFragmented : LinkedList :=
  { head := [⟨"P0", 3, 2, 4⟩, ⟨"P1", 2, 5, 6⟩, ⟨"P2", 1, 8, 8⟩], number := 3 }

/-- A table of capacity 12 that is full: regions `[0,6]` and `[7,11]`. -/
def sampleFull : LinkedList :=
  { head := [⟨"P0", 7, 0, 6⟩, ⟨"P1", 5, 7, 11⟩], number := 2 }

/-- A table of capacity 12 in which two regions have the owner `P1`. -/
def sampleDuplicate : LinkedList :=
  { head := [⟨"P0", 2, 0, 1⟩, ⟨"P1", 3, 2, 4⟩, ⟨"P2", 1, 6, 6⟩, ⟨"P1", 2, 8, 9⟩], number := 4 }

/-- The memory of capacity 12 after the line `RQ P0 5 B` is served on the
empty table. -/
def sampleServed : Memory :=
  { processes := { head := [⟨"P0", 5, 0, 4⟩], number := 0 }, max := 11 }

/-- The memory of capacity 12 that holds the fragmented table. -/
def sampleMemory : Memory := { processes := sampleFragmented, max := 11 }

/-- A table of capacity 11 with the free gaps `[0,4]`, `[6,7]` and `[9,10]`:
the first gap is the largest, the two others have the same size 2. -/
def sampleTieBehind : LinkedList :=
  { head := [⟨"P0", 1, 5, 5⟩, ⟨"P1", 1, 8, 8⟩], number := 2 }

/-! ## Lemmas -/

theorem chainFrom_mono (max : Int) : ∀ (ps : List Process) (lo lo2 : Int),
    lo2 ≤ lo → ChainFrom max lo ps → ChainFrom max lo2 ps
  | [], lo, lo2, h, hc => by
      simp only [ChainFrom] at hc ⊢
      omega
  | t :: rest, lo, lo2, h, hc => by
      simp only [ChainFrom] at hc ⊢
      exact ⟨by omega, hc.2.1, hc.2.2.1, hc.2.2.2⟩

theorem chainFrom_le (max : Int) : ∀ (ps : List Process) (lo : Int),
    ChainFrom max lo ps → lo ≤ max + 1
  | [], lo, hc => by simpa only [ChainFrom] using hc
  | t :: rest, lo, hc => by
      simp only [ChainFrom] at hc
      have := chainFrom_le max rest _ hc.2.2.2
      omega

theorem chainFrom_mem (max : Int) : ∀ (ps : List Process) (lo : Int),
    ChainFrom max lo ps → ∀ r ∈ ps,
      lo ≤ r.firstByte ∧ r.lastByte ≤ max ∧ 1 ≤ r.size ∧
        r.size = r.lastByte - r.firstByte + 1
  | [], _, _, r, hr => by simp at hr
  | t :: rest, lo, hc, r, hr => by
      simp only [ChainFrom] at hc
      rcases List.mem_cons.1 hr with rfl | hr
      · have := chainFrom_le max rest _ hc.2.2.2
        exact ⟨hc.1, by omega, hc.2.1, hc.2.2.1⟩
      · have := chainFrom_mem max rest _ hc.2.2.2 r hr
        exact ⟨by omega, this.2.1, this.2.2.1, this.2.2.2⟩

theorem chainFrom_pairwise (max : Int) : ∀ (ps : List Process) (lo : Int),
    ChainFrom max lo ps → ps.Pairwise (fun a b => a.lastByte < b.firstByte)
  | [], _, _ => List.Pairwise.nil
  | t :: rest, lo, hc => by
      simp only [ChainFrom] at hc
      refine List.Pairwise.cons ?_ (chainFrom_pairwise max rest _ hc.2.2.2)
      intro b hb
      have := chainFrom_mem max rest _ hc.2.2.2 b hb
      omega

theorem chainFrom_tableInv (capacity : Int) (ps : List Process)
    (hc : ChainFrom (capacity - 1) 0 ps) : TableInv capacity ps := by
  have hm := chainFrom_mem (capacity - 1) ps 0 hc
  have hp := chainFrom_pairwise (capacity - 1) ps 0 hc
  refine ⟨fun r hr => (hm r hr).2.2.1, ?_, fun r hr => ⟨(hm r hr).1, (hm r hr).2.1⟩, ?_,
    fun r hr => (hm r hr).2.2.2⟩
  · exact hp.imp (fun h => Or.inl h)
  · refine (List.Pairwise.and_mem.1 hp).imp ?_
    intro a b h
    have := hm a h.1
    omega

theorem tableInv_chainFrom_aux (max : Int) : ∀ (ps : List Process) (lo : Int),
    lo ≤ max + 1 → (∀ r ∈ ps, lo ≤ r.firstByte) → Sized ps → NonOverlap ps →
    (∀ r ∈ ps, r.lastByte ≤ max) → Ascending ps → SizeExact ps → ChainFrom max lo ps
  | [], lo, h, _, _, _, _, _, _ => by simpa only [ChainFrom] using h
  | t :: rest, lo, h, hlo, hs, hn, hb, ha, he => by
      simp only [ChainFrom]
      have ht : t ∈ t :: rest := List.mem_cons_self _ _
      have hst := hs t ht
      have het := he t ht
      have hbt := hb t ht
      refine ⟨hlo t ht, hst, het, ?_⟩
      have hn2 := List.pairwise_cons.1 hn
      have ha2 := List.pairwise_cons.1 ha
      refine tableInv_chainFrom_aux max rest _ (by omega) ?_
        (fun r hr => hs r (List.mem_cons_of_mem _ hr)) hn2.2
        (fun r hr => hb r (List.mem_cons_of_mem _ hr)) ha2.2
        (fun r hr => he r (List.mem_cons_of_mem _ hr))
      intro r hr
      have h1 := hn2.1 r hr
      have h2 := ha2.1 r hr
      have h3 := hs r (List.mem_cons_of_mem _ hr)
      have h4 := he r (List.mem_cons_of_mem _ hr)
      omega

theorem tableInv_chainFrom (capacity : Int) (ps : List Process) (h0 : 0 ≤ capacity)
    (h : TableInv capacity ps) : ChainFrom (capacity - 1) 0 ps := by
  obtain ⟨hs, hn, hb, ha, he⟩ := h
  exact tableInv_chainFrom_aux (capacity - 1) ps 0 (by omega) (fun r hr => (hb r hr).1) hs hn
    (fun r hr => (hb r hr).2) ha he

/-- A non-empty table of the data model has a capacity of at least 1. -/
theorem tableInv_capacity_pos (capacity : Int) (ps : List Process) (hne : ps ≠ [])
    (h : TableInv capacity ps) : 1 ≤ capacity := by
  obtain ⟨hs, _, hb, _, he⟩ := h
  cases ps with
  | nil => exact absurd rfl hne
  | cons t rest =>
      have ht : t ∈ t :: rest := List.mem_cons_self _ _
      have := hs t ht
      have := hb t ht
      have := he t ht
      omega

theorem bestFit_spec (size : Int) : ∀ (gs : List Int) (c w g : Int),
    (bestFit size gs c w g = (w, g) ∧ ∀ x ∈ gs, ¬ (size ≤ x ∧ x - size < g)) ∨
    ∃ (i : Nat) (x : Int), gs[i]? = some x ∧ bestFit size gs c w g = (c + i, x - size) ∧
      size ≤ x ∧ x - size < g ∧
      (∀ (j : Nat) (y : Int), j < i → gs[j]? = some y → size ≤ y → x - size < y - size) ∧
      (∀ (j : Nat) (y : Int), gs[j]? = some y → size ≤ y → x - size ≤ y - size)
  | [], c, w, g => Or.inl ⟨rfl, by simp⟩
  | x :: xs, c, w, g => by
      by_cases hx : x ≥ size ∧ x - size < g
      · have hstep : bestFit size (x :: xs) c w g = bestFit size xs (c + 1) c (x - size) := by
          simp only [bestFit, if_pos hx]
        rcases bestFit_spec size xs (c + 1) c (x - size) with ⟨he, hno⟩ | ⟨i, y, hi, he, hy, hlt, hfirst, hmin⟩
        · refine Or.inr ⟨0, x, by simp, ?_, hx.1, hx.2, ?_, ?_⟩
          · rw [hstep, he]; simp
          · intro j y hj; omega
          · intro j y hj hy
            cases j with
            | zero => simp at hj; omega
            | succ k =>
                simp only [List.getElem?_cons_succ] at hj
                have := hno y (List.getElem?_mem hj)
                omega
        · refine Or.inr ⟨i + 1, y, by simpa using hi, ?_, hy, by omega, ?_, ?_⟩
          · rw [hstep, he]; simp; omega
          · intro j z hj hz hsz
            cases j with
            | zero => simp at hz; omega
            | succ k =>
                simp only [List.getElem?_cons_succ] at hz
                exact hfirst k z (by omega) hz hsz
          · intro j z hz hsz
            cases j with
            | zero => simp at hz; omega
            | succ k =>
                simp only [List.getElem?_cons_succ] at hz
                exact hmin k z hz hsz
      · have hstep : bestFit size (x :: xs) c w g = bestFit size xs (c + 1) w g := by
          simp only [bestFit, if_neg hx]
        rcases bestFit_spec size xs (c + 1) w g with ⟨he, hno⟩ | ⟨i, y, hi, he, hy, hlt, hfirst, hmin⟩
        · refine Or.inl ⟨by rw [hstep, he], ?_⟩
          intro z hz
          rcases List.mem_cons.1 hz with rfl | hz
          · exact hx
          · exact hno z hz
        · refine Or.inr ⟨i + 1, y, by simpa using hi, ?_, hy, hlt, ?_, ?_⟩
          · rw [hstep, he]; simp; omega
          · intro j z hj hz hsz
            cases j with
            | zero =>
                simp at hz
                have : ¬ (size ≤ x ∧ x - size < g) := hx
                omega
            | succ k =>
                simp only [List.getElem?_cons_succ] at hz
                exact hfirst k z (by omega) hz hsz
          · intro j z hz hsz
            cases j with
            | zero =>
                simp at hz
                have : ¬ (size ≤ x ∧ x - size < g) := hx
                omega
            | succ k =>
                simp only [List.getElem?_cons_succ] at hz
                exact hmin k z hz hsz

theorem scanGaps_eq_bestFit (size max : Int) (hsize : 1 ≤ size) :
    ∀ (ps : List Process) (c w g : Int),
      LinkedList.scanGaps size max ps c w g = bestFit size (gapsBehind max ps) c w g
  | [], c, w, g => by simp [LinkedList.scanGaps, gapsBehind, bestFit]
  | [t], c, w, g => by
      simp only [LinkedList.scanGaps, gapsBehind, bestFit]
  | t :: n :: rest, c, w, g => by
      simp only [LinkedList.scanGaps, gapsBehind, bestFit]
      by_cases hgap : t.lastByte < n.firstByte - 1
      · simp only [if_pos hgap]
        split <;> exact scanGaps_eq_bestFit size max hsize (n :: rest) _ _ _
      · have hno : ¬ (n.firstByte - t.lastByte - 1 ≥ size ∧
            n.firstByte - t.lastByte - 1 - size < g) := by omega
        simp only [if_neg hgap, if_neg hno]
        exact scanGaps_eq_bestFit size max hsize (n :: rest) _ _ _

theorem findSpotInList_eq_bestFit (l : LinkedList) (size max : Int) (hsize : 1 ≤ size)
    (hgaps : ∀ x ∈ freeGaps l.head max, x ≤ INT_MAX) :
    l.findSpotInList size max = (bestFit size (freeGaps l.head max) 0 (-1) INT_MAX).1 := by
  unfold LinkedList.findSpotInList
  cases hl : l.head with
  | nil =>
      have h := hgaps (max + 1) (by simp [hl, freeGaps])
      simp only [freeGaps, bestFit]
      by_cases hs : size ≤ max + 1
      · have : max + 1 ≥ size ∧ max + 1 - size < INT_MAX := ⟨hs, by omega⟩
        simp [hs, this]
      · have : ¬ (max + 1 ≥ size ∧ max + 1 - size < INT_MAX) := fun h => hs h.1
        simp [hs, this]
  | cons t rest =>
      have h := hgaps t.firstByte (by simp [hl, freeGaps])
      simp only [freeGaps, bestFit]
      rw [scanGaps_eq_bestFit size max hsize]
      by_cases hs : t.firstByte ≥ size
      · have h1 : t.firstByte ≠ 0 ∧ t.firstByte ≥ size := ⟨by omega, hs⟩
        have h2 : t.firstByte ≥ size ∧ t.firstByte - size < INT_MAX := ⟨hs, by omega⟩
        simp only [if_pos h1, if_pos h2]
        rfl
      · have h1 : ¬ (t.firstByte ≠ 0 ∧ t.firstByte ≥ size) := fun h => hs h.2
        have h2 : ¬ (t.firstByte ≥ size ∧ t.firstByte - size < INT_MAX) := fun h => hs h.1
        simp only [if_neg h1, if_neg h2]
        rfl

theorem gapsBehind_length (max : Int) : ∀ ps : List Process,
    (gapsBehind max ps).length = ps.length
  | [] => rfl
  | [_] => rfl
  | _ :: n :: rest => by
      simp only [gapsBehind, List.length_cons]
      have := gapsBehind_length max (n :: rest)
      simp only [List.length_cons] at this
      omega

theorem gapsBehind_getElem (max : Int) : ∀ (ps : List Process) (k : Nat),
    k < ps.length → (gapsBehind max ps)[k]? = some (gapSize ps max (k + 1))
  | [], k, h => by simp at h
  | [t], k, h => by
      have hk : k = 0 := by simpa using h
      subst hk
      simp [gapsBehind, gapSize]
  | t :: n :: rest, 0, _ => by simp [gapsBehind, gapSize]
  | t :: n :: rest, k + 1, h => by
      have hk : k < (n :: rest).length := by
        simp only [List.length_cons] at h ⊢
        omega
      have := gapsBehind_getElem max (n :: rest) k hk
      simp only [gapsBehind, List.getElem?_cons_succ, this]
      simp only [gapSize, List.getElem?_cons_succ]

theorem freeGaps_length (ps : List Process) (max : Int) :
    (freeGaps ps max).length = ps.length + 1 := by
  cases ps with
  | nil => rfl
  | cons t rest =>
      simp only [freeGaps, List.length_cons]
      have := gapsBehind_length max (t :: rest)
      simp only [List.length_cons] at this
      omega

theorem freeGaps_getElem (ps : List Process) (max : Int) (q : Nat) (hq : q ≤ ps.length) :
    (freeGaps ps max)[q]? = some (gapSize ps max q) := by
  cases ps with
  | nil =>
      have : q = 0 := by simpa using hq
      subst this
      simp [freeGaps, gapSize]
  | cons t rest =>
      cases q with
      | zero => simp [freeGaps, gapSize]
      | succ k =>
          have hk : k < (t :: rest).length := by
            simp only [List.length_cons] at hq ⊢
            omega
          simp only [freeGaps, List.getElem?_cons_succ]
          exact gapsBehind_getElem max (t :: rest) k hk

theorem freeGaps_getElem_some (ps : List Process) (max : Int) (q : Nat) (x : Int)
    (h : (freeGaps ps max)[q]? = some x) : q ≤ ps.length ∧ x = gapSize ps max q := by
  have hlt : q < (freeGaps ps max).length := by
    by_contra hc
    rw [List.getElem?_eq_none (by omega)] at h
    exact Option.noConfusion h
  rw [freeGaps_length] at hlt
  have hq : q ≤ ps.length := by omega
  rw [freeGaps_getElem ps max q hq] at h
  exact ⟨hq, (Option.some.inj h).symm⟩

theorem gapsBehind_le (max : Int) : ∀ (ps : List Process) (lo : Int),
    ChainFrom max lo ps → ∀ x ∈ gapsBehind max ps, 0 ≤ x ∧ x + lo ≤ max
  | [], _, _, x, hx => by simp [gapsBehind] at hx
  | [t], lo, hc, x, hx => by
      simp only [ChainFrom] at hc
      simp only [gapsBehind, List.mem_singleton] at hx
      omega
  | t :: n :: rest, lo, hc, x, hx => by
      have hc2 := hc
      simp only [ChainFrom] at hc
      simp only [gapsBehind, List.mem_cons] at hx
      have hn := chainFrom_mem max (n :: rest) _ hc.2.2.2 n (List.mem_cons_self _ _)
      rcases hx with rfl | hx
      · omega
      · have := gapsBehind_le max (n :: rest) _ hc2.2.2.2 x (by simpa [gapsBehind] using hx)
        omega

theorem freeGaps_le (capacity : Int) (ps : List Process) (h : TableInv capacity ps) :
    ∀ x ∈ freeGaps ps (capacity - 1), x ≤ capacity := by
  intro x hx
  cases ps with
  | nil =>
      simp only [freeGaps, List.mem_singleton] at hx
      omega
  | cons t rest =>
      have hcap := tableInv_capacity_pos capacity (t :: rest) (by simp) h
      have hc := tableInv_chainFrom capacity (t :: rest) (by omega) h
      simp only [freeGaps, List.mem_cons] at hx
      have ht := chainFrom_mem _ _ _ hc t (List.mem_cons_self _ _)
      rcases hx with rfl | hx
      · omega
      · have := gapsBehind_le _ _ _ hc x hx
        omega

/-- What `findSpotInList` returns on a table of the data model: -1 when no
gap holds `size`, otherwise the first position among the gaps with the least
leftover. -/
theorem findSpotInList_cases (capacity size : Int) (l : LinkedList)
    (hcap : capacity ≤ INT_MAX) (hinv : TableInv capacity l.head) (hsize : 1 ≤ size) :
    (l.findSpotInList size (capacity - 1) = -1 ∧
      ∀ q : Nat, q ≤ l.head.length → gapSize l.head (capacity - 1) q < size) ∨
    ∃ i : Nat, i ≤ l.head.length ∧ l.findSpotInList size (capacity - 1) = (i : Int) ∧
      size ≤ gapSize l.head (capacity - 1) i ∧
      (∀ j : Nat, j < i → size ≤ gapSize l.head (capacity - 1) j →
        gapSize l.head (capacity - 1) i < gapSize l.head (capacity - 1) j) ∧
      (∀ j : Nat, j ≤ l.head.length → size ≤ gapSize l.head (capacity - 1) j →
        gapSize l.head (capacity - 1) i ≤ gapSize l.head (capacity - 1) j) := by
  have hle := freeGaps_le capacity l.head hinv
  have hgaps : ∀ x ∈ freeGaps l.head (capacity - 1), x ≤ INT_MAX :=
    fun x hx => le_trans (hle x hx) hcap
  rw [findSpotInList_eq_bestFit l size (capacity - 1) hsize hgaps]
  rcases bestFit_spec size (freeGaps l.head (capacity - 1)) 0 (-1) INT_MAX with
    ⟨he, hno⟩ | ⟨i, x, hi, he, hx, _, hfirst, hmin⟩
  · refine Or.inl ⟨by rw [he], ?_⟩
    intro q hq
    have hmem := List.getElem?_mem (freeGaps_getElem l.head (capacity - 1) q hq)
    have h1 := hno _ hmem
    have h2 := hgaps _ hmem
    omega
  · obtain ⟨hil, hxe⟩ := freeGaps_getElem_some _ _ _ _ hi
    subst hxe
    refine Or.inr ⟨i, hil, by rw [he]; simp, hx, ?_, ?_⟩
    · intro j hj hs
      have := hfirst j _ hj (freeGaps_getElem l.head (capacity - 1) j (by omega)) hs
      omega
    · intro j hj hs
      have := hmin j _ (freeGaps_getElem l.head (capacity - 1) j hj) hs
      omega

theorem linkAfter_shape (owner : String) (size : Int) : ∀ (ps : List Process) (k : Nat),
    k < ps.length →
    LinkedList.linkAfter (Process.new owner size) ps k =
      some (ps.take (k + 1) ++ placed ps owner size (k + 1) :: ps.drop (k + 1))
  | [], k, h => by simp at h
  | t :: rest, 0, _ => by
      simp [LinkedList.linkAfter, placed, gapStart, Process.new]
  | t :: rest, k + 1, h => by
      have hk : k < rest.length := by
        simp only [List.length_cons] at h
        omega
      simp only [LinkedList.linkAfter, linkAfter_shape owner size rest k hk, Option.map_some']
      simp [placed, gapStart]

theorem chainFrom_insert (max : Int) (q : Process) : ∀ (ps : List Process) (k : Nat) (lo : Int),
    k < ps.length → ChainFrom max lo ps → 1 ≤ q.size →
    q.size ≤ gapSize ps max (k + 1) → q.firstByte = gapStart ps (k + 1) →
    q.lastByte = q.firstByte + q.size - 1 →
    ChainFrom max lo (ps.take (k + 1) ++ q :: ps.drop (k + 1))
  | [], k, _, h, _, _, _, _, _ => by simp at h
  | [t], 0, lo, _, hc, hs, hg, hf, hl => by
      simp only [ChainFrom] at hc
      simp [gapSize] at hg
      simp [gapStart] at hf
      simp only [List.take, List.drop, List.nil_append, List.cons_append, ChainFrom]
      refine ⟨hc.1, hc.2.1, hc.2.2.1, ?_, hs, ?_, ?_⟩ <;> omega
  | [t], k + 1, _, h, _, _, _, _, _ => by simp at h
  | t :: n :: rest, 0, lo, _, hc, hs, hg, hf, hl => by
      simp only [ChainFrom] at hc
      simp [gapSize] at hg
      simp [gapStart] at hf
      simp only [List.take, List.drop, List.nil_append, List.cons_append, ChainFrom]
      refine ⟨hc.1, hc.2.1, hc.2.2.1, ?_, hs, ?_, ?_, hc.2.2.2.2.1, hc.2.2.2.2.2.1,
        hc.2.2.2.2.2.2⟩ <;> omega
  | t :: n :: rest, k + 1, lo, h, hc, hs, hg, hf, hl => by
      simp only [ChainFrom] at hc
      have hk : k < (n :: rest).length := by
        simp only [List.length_cons] at h ⊢
        omega
      have hg2 : q.size ≤ gapSize (n :: rest) max (k + 1) := by
        simpa only [gapSize, List.getElem?_cons_succ] using hg
      have hf2 : q.firstByte = gapStart (n :: rest) (k + 1) := by
        simpa only [gapStart, List.getElem?_cons_succ] using hf
      have ih := chainFrom_insert max q (n :: rest) k (t.lastByte + 1) hk
        (by simpa only [ChainFrom] using hc.2.2.2) hs hg2 hf2 hl
      simp only [List.take_succ_cons, List.drop_succ_cons, List.cons_append]
      rw [ChainFrom]
      exact ⟨hc.1, hc.2.1, hc.2.2.1, ih⟩

/-- Adding a new process at a position whose gap holds it: the call returns,
the new region is linked in at that position, and the chain stays a chain. -/
theorem addProcessToList_fit (max : Int) (l : LinkedList) (owner : String) (size : Int)
    (i : Nat) (hc : ChainFrom max 0 l.head) (hsize : 1 ≤ size) (hi : i ≤ l.head.length)
    (hfit : size ≤ gapSize l.head max i) :
    ∃ l2 : LinkedList, l.addProcessToList (some (Process.new owner size)) (i : Int) = some l2 ∧
      l2.head = l.head.take i ++ placed l.head owner size i :: l.head.drop i ∧
      ChainFrom max 0 l2.head := by
  cases i with
  | zero =>
      refine ⟨{ l with head := { Process.new owner size with
          firstByte := 0, lastByte := (Process.new owner size).size - 1 } :: l.head },
        by simp [LinkedList.addProcessToList], ?_, ?_⟩
      · simp [placed, gapStart, Process.new]
      · cases hl : l.head with
        | nil =>
            rw [hl] at hfit
            simp only [gapSize] at hfit
            simp only [Process.new, ChainFrom]
            refine ⟨le_refl _, hsize, ?_, ?_⟩ <;> omega
        | cons t rest =>
            rw [hl] at hfit hc
            simp only [gapSize] at hfit
            simp only [ChainFrom] at hc
            simp only [Process.new, ChainFrom]
            refine ⟨le_refl _, hsize, ?_, ?_, hc.2.1, hc.2.2.1, hc.2.2.2⟩ <;> omega
  | succ k =>
      have hk : k < l.head.length := by omega
      have hpos : ¬ (((k + 1 : Nat) : Int) = 0) := by omega
      have hneg : ¬ (((k + 1 : Nat) : Int) < 0) := by omega
      have hnat : (((k + 1 : Nat) : Int) - 1).toNat = k := by omega
      refine ⟨{ head := l.head.take (k + 1) ++ placed l.head owner size (k + 1) ::
          l.head.drop (k + 1), number := l.number + 1 }, ?_, rfl, ?_⟩
      · simp only [LinkedList.addProcessToList, if_neg hpos, if_neg hneg, hnat,
          linkAfter_shape owner size l.head k hk, Option.map_some']
      · exact chainFrom_insert max (placed l.head owner size (k + 1)) l.head k 0 hk hc hsize hfit
          rfl rfl

/-- Whatever the table, a position returned by `findSpotInList` is one of the
positions `0 .. n`, and its gap holds the requested size. -/
theorem findSpotInList_fit (l : LinkedList) (size max : Int) (hsize : 1 ≤ size) :
    l.findSpotInList size max = -1 ∨
    ∃ i : Nat, i ≤ l.head.length ∧ l.findSpotInList size max = (i : Int) ∧
      size ≤ gapSize l.head max i := by
  unfold LinkedList.findSpotInList
  cases hl : l.head with
  | nil =>
      by_cases hs : size ≤ max + 1
      · exact Or.inr ⟨0, by simp, by simp [hs], by simpa [gapSize] using hs⟩
      · exact Or.inl (by simp [hs])
  | cons t rest =>
      simp only []
      rw [scanGaps_eq_bestFit size max hsize]
      generalize hst : (if t.firstByte ≠ 0 ∧ t.firstByte ≥ size then
        ((0 : Int), t.firstByte - size) else (-1, INT_MAX)) = start
      rcases bestFit_spec size (gapsBehind max (t :: rest)) 1 start.1 start.2 with
        ⟨he, _⟩ | ⟨i, x, hi, he, hx, _, _, _⟩
      · rw [he]
        by_cases h0 : t.firstByte ≠ 0 ∧ t.firstByte ≥ size
        · rw [if_pos h0] at hst
          subst hst
          exact Or.inr ⟨0, by simp, by simp, by simpa [gapSize] using h0.2⟩
        · rw [if_neg h0] at hst
          subst hst
          exact Or.inl rfl
      · rw [he]
        have hlt : i < (t :: rest).length := by
          by_contra hc
          rw [List.getElem?_eq_none (by rw [gapsBehind_length]; omega)] at hi
          exact Option.noConfusion hi
        rw [gapsBehind_getElem max (t :: rest) i hlt] at hi
        have hxe := Option.some.inj hi
        refine Or.inr ⟨i + 1, by omega, ?_, by omega⟩
        simp only [Nat.cast_add, Nat.cast_one]
        omega

theorem unlinkFirst_none (name : String) : ∀ ps : List Process,
    LinkedList.unlinkFirst name ps = none ↔ ∀ r ∈ ps, r.processNumber ≠ name
  | [] => by simp [LinkedList.unlinkFirst]
  | t :: rest => by
      by_cases h : name = t.processNumber
      · simp [LinkedList.unlinkFirst, h]
      · have ih := unlinkFirst_none name rest
        have h2 : ¬ t.processNumber = name := fun e => h e.symm
        simp [LinkedList.unlinkFirst, h, h2, ih]

theorem unlinkFirst_some (name : String) : ∀ (ps : List Process) (sz : Int) (qs : List Process),
    LinkedList.unlinkFirst name ps = some (sz, qs) →
    ∃ (before : List Process) (r : Process) (after : List Process),
      ps = before ++ r :: after ∧ (∀ x ∈ before, x.processNumber ≠ name) ∧
      r.processNumber = name ∧ sz = r.size ∧ qs = before ++ after
  | [], _, _, h => by simp [LinkedList.unlinkFirst] at h
  | t :: rest, sz, qs, h => by
      by_cases hn : name = t.processNumber
      · simp only [LinkedList.unlinkFirst, if_pos hn, Option.some.injEq, Prod.mk.injEq] at h
        exact ⟨[], t, rest, rfl, by simp, hn.symm, h.1.symm, h.2.symm⟩
      · simp only [LinkedList.unlinkFirst, if_neg hn, Option.map_eq_some'] at h
        obtain ⟨⟨s2, q2⟩, hr, he⟩ := h
        simp only [Prod.mk.injEq] at he
        obtain ⟨before, r, after, h1, h2, h3, h4, h5⟩ := unlinkFirst_some name rest s2 q2 hr
        refine ⟨t :: before, r, after, by rw [h1]; rfl, ?_, h3, by rw [← he.1, h4], ?_⟩
        · intro x hx
          rcases List.mem_cons.1 hx with rfl | hx
          · exact fun e => hn e.symm
          · exact h2 x hx
        · rw [← he.2, h5]; rfl

theorem chainFrom_remove (max : Int) : ∀ (before : List Process) (r : Process)
    (after : List Process) (lo : Int),
    ChainFrom max lo (before ++ r :: after) → ChainFrom max lo (before ++ after)
  | [], r, after, lo, hc => by
      simp only [List.nil_append, ChainFrom] at hc ⊢
      exact chainFrom_mono max after _ lo (by omega) hc.2.2.2
  | t :: before, r, after, lo, hc => by
      simp only [List.cons_append, ChainFrom] at hc ⊢
      exact ⟨hc.1, hc.2.1, hc.2.2.1, chainFrom_remove max before r after _ hc.2.2.2⟩

theorem removeProcessByNumber_chain (max : Int) (l : LinkedList) (name : String) (d : Bool)
    (hc : ChainFrom max 0 l.head) : ChainFrom max 0 (l.removeProcessByNumber name d).2.head := by
  unfold LinkedList.removeProcessByNumber
  cases hu : LinkedList.unlinkFirst name l.head with
  | none => exact hc
  | some res =>
      obtain ⟨sz, qs⟩ := res
      obtain ⟨before, r, after, h1, _, _, _, h5⟩ := unlinkFirst_some name l.head sz qs hu
      rw [h1] at hc
      have := chainFrom_remove max before r after 0 hc
      cases d <;> simpa [h5] using this

theorem compactProcesses_head (l : LinkedList) (lastByte : Int) :
    (l.compactProcesses lastByte).head = LinkedList.shiftFrom l.head 0 := by
  unfold LinkedList.compactProcesses
  cases hl : l.head with
  | nil => simp [hl, LinkedList.shiftFrom]
  | cons t rest => simp [LinkedList.shiftFrom]

theorem chainFrom_sizes (max : Int) : ∀ (ps : List Process) (lo : Int),
    ChainFrom max lo ps → lo + (ps.map Process.size).sum ≤ max + 1
  | [], lo, hc => by simpa [ChainFrom] using hc
  | t :: rest, lo, hc => by
      simp only [ChainFrom] at hc
      have := chainFrom_sizes max rest _ hc.2.2.2
      simp only [List.map_cons, List.sum_cons]
      omega

theorem shiftFrom_chain (max : Int) : ∀ (ps : List Process) (nextFirst : Int),
    (∀ r ∈ ps, 1 ≤ r.size) → nextFirst + (ps.map Process.size).sum ≤ max + 1 →
    ChainFrom max nextFirst (LinkedList.shiftFrom ps nextFirst)
  | [], nf, _, h => by simpa [LinkedList.shiftFrom, ChainFrom] using h
  | t :: rest, nf, hs, h => by
      simp only [List.map_cons, List.sum_cons] at h
      simp only [LinkedList.shiftFrom, ChainFrom]
      refine ⟨le_refl _, hs t (List.mem_cons_self _ _), by omega, ?_⟩
      exact shiftFrom_chain max rest _ (fun r hr => hs r (List.mem_cons_of_mem _ hr)) (by omega)

theorem compactProcesses_chain (max : Int) (l : LinkedList) (lastByte : Int)
    (hc : ChainFrom max 0 l.head) : ChainFrom max 0 (l.compactProcesses lastByte).head := by
  rw [compactProcesses_head]
  exact shiftFrom_chain max l.head 0 (fun r hr => (chainFrom_mem max l.head 0 hc r hr).2.2.1)
    (chainFrom_sizes max l.head 0 hc)

theorem apply_chain (m : Memory) (op : Op) (hv : ValidOp op)
    (hc : ChainFrom m.max 0 m.processes.head) :
    ∃ m2 : Memory, Allocator.apply m op = some m2 ∧ m2.max = m.max ∧
      ChainFrom m2.max 0 m2.processes.head := by
  cases op with
  | allocate owner size =>
      have hsize : 1 ≤ size := hv
      simp only [Allocator.apply, Allocator.allocate, Memory.findMemorySlot]
      rcases findSpotInList_fit m.processes size m.max hsize with h | ⟨i, hi, he, hfit⟩
      · exact ⟨m, by simp [h], rfl, hc⟩
      · obtain ⟨l2, hadd, _, hc2⟩ := addProcessToList_fit m.max m.processes owner size i hc hsize
          hi hfit
        have hne : ¬ ((i : Int) = -1) := by omega
        refine ⟨{ m with processes := l2 }, ?_, rfl, hc2⟩
        simp only [he, if_neg hne, Memory.addProcessToMemory, hadd, Option.map_some']
  | release owner =>
      refine ⟨(m.removeProcessFromMemory owner).2, rfl, ?_, ?_⟩
      · unfold Memory.removeProcessFromMemory
        simp only []
        split <;> rfl
      · unfold Memory.removeProcessFromMemory
        simp only []
        split <;> exact removeProcessByNumber_chain m.max m.processes owner false hc
  | compact =>
      exact ⟨m.compactMemory m.max, rfl, rfl,
        compactProcesses_chain m.max m.processes m.max hc⟩

theorem runOps_chain : ∀ (ops : List Op) (m : Memory), (∀ op ∈ ops, ValidOp op) →
    ChainFrom m.max 0 m.processes.head →
    ∃ m2 : Memory, Allocator.runOps m ops = some m2 ∧ m2.max = m.max ∧
      ChainFrom m2.max 0 m2.processes.head
  | [], m, _, hc => ⟨m, rfl, rfl, hc⟩
  | op :: ops, m, hv, hc => by
      obtain ⟨m1, h1, hmax1, hc1⟩ := apply_chain m op (hv op (List.mem_cons_self _ _)) hc
      obtain ⟨m2, h2, hmax2, hc2⟩ := runOps_chain ops m1
        (fun o ho => hv o (List.mem_cons_of_mem _ ho)) hc1
      exact ⟨m2, by simp [Allocator.runOps, h1, h2], by rw [hmax2, hmax1], hc2⟩

/-- Every table reached from the empty table by valid commands is a table of
the data model. -/
theorem runOps_tableInv (capacity : Int) (hcap : 1 ≤ capacity) (ops : List Op)
    (hv : ∀ op ∈ ops, ValidOp op) :
    ∃ m : Memory, Allocator.runOps (Memory.new (capacity - 1)) ops = some m ∧
      m.max = capacity - 1 ∧ TableInv capacity m.processes.head := by
  have h0 : ChainFrom (Memory.new (capacity - 1)).max 0 (Memory.new (capacity - 1)).processes.head := by
    simp only [Memory.new, LinkedList.empty, ChainFrom]
    omega
  obtain ⟨m, hm, hmax, hc⟩ := runOps_chain ops (Memory.new (capacity - 1)) hv h0
  have hmax2 : m.max = capacity - 1 := by rw [hmax]; rfl
  rw [hmax2] at hc
  exact ⟨m, hm, hmax2, chainFrom_tableInv capacity m.processes.head hc⟩

theorem printFrom_tiles (max : Int) : ∀ (ps : List Process) (d : Int),
    ChainFrom max d ps → Tiles max d (LinkedList.printFrom max ps d)
  | [], d, hc => by
      simp only [ChainFrom] at hc
      by_cases hd : d ≠ max + 1
      · simp only [LinkedList.printFrom, if_pos hd, Tiles, Span.first, Span.last]
        exact ⟨trivial, by omega, trivial⟩
      · simp only [LinkedList.printFrom, if_neg hd, Tiles]
        omega
  | t :: rest, d, hc => by
      simp only [ChainFrom] at hc
      have ih := printFrom_tiles max rest (t.lastByte + 1) hc.2.2.2
      by_cases hd : t.firstByte = d
      · simp only [LinkedList.printFrom, if_pos hd, Tiles, Process.toString, Span.first,
          Span.last]
        exact ⟨hd, by omega, ih⟩
      · simp only [LinkedList.printFrom, if_neg hd, Tiles, Process.toString, Span.first,
          Span.last]
        exact ⟨trivial, by omega, by omega, by omega, ih⟩

theorem tiles_le (hi : Int) : ∀ (spans : List Span) (lo : Int), Tiles hi lo spans → lo ≤ hi + 1
  | [], lo, h => by simp only [Tiles] at h; omega
  | s :: rest, lo, h => by
      simp only [Tiles] at h
      have := tiles_le hi rest _ h.2.2
      omega

theorem tiles_head (hi : Int) (spans : List Span) (lo : Int) (h : Tiles hi lo spans)
    (hlo : lo ≤ hi) : spans.head?.map Span.first = some lo := by
  cases spans with
  | nil => simp only [Tiles] at h; omega
  | cons s rest => simp only [Tiles] at h; simp [h.1]

theorem tiles_chain (hi : Int) : ∀ (spans : List Span) (lo : Int), Tiles hi lo spans →
    spans.Chain' (fun s u => u.first = s.last + 1)
  | [], _, _ => List.chain'_nil
  | [s], _, _ => List.chain'_singleton s
  | s :: u :: rest, lo, h => by
      simp only [Tiles] at h
      refine List.chain'_cons.2 ⟨h.2.2.1, tiles_chain hi (u :: rest) (s.last + 1) ?_⟩
      simp only [Tiles]
      exact h.2.2

theorem tiles_last (hi : Int) : ∀ (spans : List Span) (lo : Int), Tiles hi lo spans →
    spans ≠ [] → spans.getLast?.map Span.last = some hi
  | [], _, _, hne => absurd rfl hne
  | [s], lo, h, _ => by
      simp only [Tiles] at h
      simp only [List.getLast?_singleton, Option.map_some', Option.some.injEq]
      omega
  | s :: u :: rest, lo, h, _ => by
      simp only [Tiles] at h
      rw [List.getLast?_cons_cons]
      refine tiles_last hi (u :: rest) (s.last + 1) ?_ (by simp)
      simp only [Tiles]
      exact h.2.2

theorem tiles_count (hi : Int) : ∀ (spans : List Span) (lo : Int), Tiles hi lo spans →
    ∀ a : Int, (a < lo → spans.countP (fun s => decide (s.first ≤ a ∧ a ≤ s.last)) = 0) ∧
      (lo ≤ a → a ≤ hi → CoversOnce spans a)
  | [], lo, h, a => by
      simp only [Tiles] at h
      refine ⟨fun _ => rfl, fun h1 h2 => ?_⟩
      omega
  | s :: rest, lo, h, a => by
      simp only [Tiles] at h
      have ih := tiles_count hi rest (s.last + 1) h.2.2 a
      unfold CoversOnce at ih ⊢
      simp only [List.countP_cons]
      constructor
      · intro ha
        have hn : ¬ (s.first ≤ a ∧ a ≤ s.last) := by omega
        rw [ih.1 (by omega)]
        simp [hn]
      · intro h1 h2
        by_cases hin : a ≤ s.last
        · have hy : s.first ≤ a ∧ a ≤ s.last := ⟨by omega, hin⟩
          rw [ih.1 (by omega)]
          simp [hy]
        · have hn : ¬ (s.first ≤ a ∧ a ≤ s.last) := fun hh => hin hh.2
          rw [ih.2 (by omega) h2]
          simp [hn]

theorem tiles_exactPartition (hi : Int) (spans : List Span) (h : Tiles hi 0 spans)
    (hhi : 0 ≤ hi) : ExactPartition spans hi := by
  have hne : spans ≠ [] := by
    intro he
    subst he
    simp only [Tiles] at h
    omega
  exact ⟨tiles_head hi spans 0 h hhi, tiles_chain hi spans 0 h, tiles_last hi spans 0 h hne,
    fun a h1 h2 => (tiles_count hi spans 0 h a).2 h1 h2⟩

theorem toString_tiles (max : Int) (l : LinkedList) (hmax : 0 ≤ max)
    (hc : ChainFrom max 0 l.head) : Tiles max 0 (l.toString max) := by
  unfold LinkedList.toString
  cases hl : l.head with
  | nil =>
      simp only [Tiles, Span.first, Span.last]
      exact ⟨trivial, hmax, trivial⟩
  | cons t rest =>
      simp only []
      rw [hl] at hc
      exact printFrom_tiles max (t :: rest) 0 hc

theorem gapStart_mono (max : Int) (ps : List Process) (hc : ChainFrom max 0 ps) (i j : Nat)
    (hij : i ≤ j) (hj : j ≤ ps.length) : gapStart ps i ≤ gapStart ps j := by
  have hp := List.pairwise_iff_getElem.1 (chainFrom_pairwise max ps 0 hc)
  have hm := chainFrom_mem max ps 0 hc
  cases j with
  | zero =>
      have : i = 0 := by omega
      subst this
      exact le_refl _
  | succ b =>
      have hb : b < ps.length := by omega
      have hbm := hm ps[b] (List.getElem_mem hb)
      cases i with
      | zero =>
          simp only [gapStart, List.getElem?_eq_getElem hb]
          omega
      | succ a =>
          have ha : a < ps.length := by omega
          simp only [gapStart, List.getElem?_eq_getElem hb, List.getElem?_eq_getElem ha]
          rcases Nat.lt_or_ge a b with hlt | hge
          · have := hp a b ha hb hlt
            omega
          · have : a = b := by omega
            subst this
            exact le_refl _

theorem addProcessToList_shape (l : LinkedList) (owner : String) (size : Int) (i : Nat)
    (hi : i ≤ l.head.length) :
    ∃ l2 : LinkedList, l.addProcessToList (some (Process.new owner size)) (i : Int) = some l2 ∧
      l2.head = l.head.take i ++ placed l.head owner size i :: l.head.drop i := by
  cases i with
  | zero =>
      refine ⟨{ l with head := { Process.new owner size with
          firstByte := 0, lastByte := (Process.new owner size).size - 1 } :: l.head },
        by simp [LinkedList.addProcessToList], ?_⟩
      simp [placed, gapStart, Process.new]
  | succ k =>
      have hk : k < l.head.length := by omega
      have hpos : ¬ (((k + 1 : Nat) : Int) = 0) := by omega
      have hneg : ¬ (((k + 1 : Nat) : Int) < 0) := by omega
      have hnat : (((k + 1 : Nat) : Int) - 1).toNat = k := by omega
      refine ⟨{ head := l.head.take (k + 1) ++ placed l.head owner size (k + 1) ::
          l.head.drop (k + 1), number := l.number + 1 }, ?_, rfl⟩
      simp only [LinkedList.addProcessToList, if_neg hpos, if_neg hneg, hnat,
        linkAfter_shape owner size l.head k hk, Option.map_some']

theorem unlinkFirst_append (name : String) (r : Process) (after : List Process)
    (hr : r.processNumber = name) : ∀ before : List Process,
    (∀ x ∈ before, x.processNumber ≠ name) →
    LinkedList.unlinkFirst name (before ++ r :: after) = some (r.size, before ++ after)
  | [], _ => by simp [LinkedList.unlinkFirst, hr]
  | t :: before, h => by
      have ht : ¬ name = t.processNumber := fun e => h t (List.mem_cons_self _ _) e.symm
      have ih := unlinkFirst_append name r after hr before
        (fun x hx => h x (List.mem_cons_of_mem _ hx))
      show LinkedList.unlinkFirst name (t :: (before ++ r :: after)) = _
      simp only [LinkedList.unlinkFirst, if_neg ht, ih, Option.map_some', List.cons_append]

theorem split_first (name : String) : ∀ ps : List Process,
    (∃ r ∈ ps, r.processNumber = name) →
    ∃ (before : List Process) (r : Process) (after : List Process),
      ps = before ++ r :: after ∧ (∀ x ∈ before, x.processNumber ≠ name) ∧
      r.processNumber = name
  | [], h => by
      obtain ⟨r, hr, _⟩ := h
      simp at hr
  | t :: rest, h => by
      by_cases ht : t.processNumber = name
      · exact ⟨[], t, rest, rfl, by simp, ht⟩
      · obtain ⟨r, hr, hn⟩ := h
        have hr2 : r ∈ rest := by
          rcases List.mem_cons.1 hr with rfl | hr
          · exact absurd hn ht
          · exact hr
        obtain ⟨before, r1, after, h1, h2, h3⟩ := split_first name rest ⟨r, hr2, hn⟩
        refine ⟨t :: before, r1, after, by rw [h1]; rfl, ?_, h3⟩
        intro x hx
        rcases List.mem_cons.1 hx with rfl | hx
        · exact ht
        · exact h2 x hx

/-- Releasing a name whose first region in list order is `r`, of a size that
is not negative: the region is unlinked, its size returned, and `true`
reported. -/
theorem release_first (m : Memory) (name : String) (before : List Process) (r : Process)
    (after : List Process) (hsplit : m.processes.head = before ++ r :: after)
    (hbefore : ∀ x ∈ before, x.processNumber ≠ name) (hr : r.processNumber = name)
    (hsize : 0 ≤ r.size) :
    m.processes.removeProcessByNumber name false =
        (r.size, { head := before ++ after, number := m.processes.number - 1 }) ∧
      m.removeProcessFromMemory name =
        (true, { m with processes :=
          { head := before ++ after, number := m.processes.number - 1 } }) := by
  have hu := unlinkFirst_append name r after hr before hbefore
  have h1 : m.processes.removeProcessByNumber name false =
      (r.size, { head := before ++ after, number := m.processes.number - 1 }) := by
    simp [LinkedList.removeProcessByNumber, hsplit, hu]
  refine ⟨h1, ?_⟩
  have hneg : ¬ (r.size < 0) := by omega
  simp only [Memory.removeProcessFromMemory, h1, if_neg hneg]

/-- Releasing a name that no region has: -1 is returned, `false` reported,
and nothing changes. -/
theorem release_absent (m : Memory) (name : String)
    (h : ∀ r ∈ m.processes.head, r.processNumber ≠ name) :
    m.processes.removeProcessByNumber name false = (-1, m.processes) ∧
      m.removeProcessFromMemory name = (false, m) := by
  have hu := (unlinkFirst_none name m.processes.head).2 h
  have h1 : m.processes.removeProcessByNumber name false = (-1, m.processes) := by
    simp [LinkedList.removeProcessByNumber, hu]
  refine ⟨h1, ?_⟩
  simp [Memory.removeProcessFromMemory, h1]

/-! ### Compaction, region by region -/

theorem compactProcesses_eq (l : LinkedList) (lastByte : Int) :
    l.compactProcesses lastByte = { l with head := LinkedList.shiftFrom l.head 0 } := by
  unfold LinkedList.compactProcesses
  cases hl : l.head with
  | nil =>
      cases l
      simp only [LinkedList.shiftFrom] at hl ⊢
      simp [hl]
  | cons t rest => simp [LinkedList.shiftFrom]

theorem shiftFrom_length : ∀ (ps : List Process) (d : Int),
    (LinkedList.shiftFrom ps d).length = ps.length
  | [], _ => rfl
  | t :: rest, d => by
      simp only [LinkedList.shiftFrom, List.length_cons, shiftFrom_length rest]

theorem shiftFrom_owner_size : ∀ (ps : List Process) (d : Int),
    (LinkedList.shiftFrom ps d).map (fun r => (r.processNumber, r.size)) =
      ps.map (fun r => (r.processNumber, r.size))
  | [], _ => rfl
  | t :: rest, d => by
      simp only [LinkedList.shiftFrom, List.map_cons, shiftFrom_owner_size rest]

theorem shiftFrom_sizes (ps : List Process) (d : Int) :
    (LinkedList.shiftFrom ps d).map Process.size = ps.map Process.size := by
  have h := congrArg (List.map Prod.snd) (shiftFrom_owner_size ps d)
  simpa [List.map_map, Function.comp] using h

theorem shiftFrom_idem : ∀ (ps : List Process) (d : Int),
    LinkedList.shiftFrom (LinkedList.shiftFrom ps d) d = LinkedList.shiftFrom ps d
  | [], _ => rfl
  | t :: rest, d => by
      simp only [LinkedList.shiftFrom, shiftFrom_idem rest]

theorem shiftFrom_getElem : ∀ (ps : List Process) (d : Int) (i : Nat) (r : Process),
    ps[i]? = some r →
    (LinkedList.shiftFrom ps d)[i]? =
      some { r with firstByte := d + sizesBefore ps i,
                    lastByte := d + sizesBefore ps (i + 1) - 1 }
  | [], _, i, r, h => by simp at h
  | t :: rest, d, 0, r, h => by
      simp only [List.getElem?_cons_zero, Option.some.injEq] at h
      subst h
      simp only [LinkedList.shiftFrom, List.getElem?_cons_zero, sizesBefore, List.take_zero,
        List.map_nil, List.sum_nil, List.take_succ_cons, List.map_cons, List.sum_cons,
        Option.some.injEq, Process.mk.injEq, true_and]
      constructor <;> omega
  | t :: rest, d, i + 1, r, h => by
      simp only [List.getElem?_cons_succ] at h
      have ih := shiftFrom_getElem rest (t.size + d - 1 + 1) i r h
      simp only [LinkedList.shiftFrom, List.getElem?_cons_succ, ih, sizesBefore,
        List.take_succ_cons, List.map_cons, List.sum_cons, Option.some.injEq, Process.mk.injEq,
        true_and]
      constructor <;> omega

theorem shiftFrom_packed : ∀ (ps : List Process) (d : Int),
    (∀ r, (LinkedList.shiftFrom ps d).head? = some r → r.firstByte = d) ∧
    (LinkedList.shiftFrom ps d).Chain' (fun a b => b.firstByte = a.lastByte + 1) ∧
    ∀ r ∈ LinkedList.shiftFrom ps d, r.lastByte = r.firstByte + r.size - 1
  | [], _ => ⟨by simp [LinkedList.shiftFrom], by simp [LinkedList.shiftFrom],
      by simp [LinkedList.shiftFrom]⟩
  | t :: rest, d => by
      obtain ⟨h1, h2, h3⟩ := shiftFrom_packed rest (t.size + d - 1 + 1)
      simp only [LinkedList.shiftFrom]
      refine ⟨?_, ?_, ?_⟩
      · intro r hr
        simp only [List.head?_cons, Option.some.injEq] at hr
        subst hr
        rfl
      · refine List.chain'_cons'.2 ⟨?_, h2⟩
        intro b hb
        exact h1 b hb
      · intro r hr
        rcases List.mem_cons.1 hr with rfl | hr
        · simp only []
          omega
        · exact h3 r hr

theorem printFrom_shiftFrom (max : Int) : ∀ (ps : List Process) (d : Int),
    LinkedList.printFrom max (LinkedList.shiftFrom ps d) d =
      (LinkedList.shiftFrom ps d).map Process.toString ++
        (if d + (ps.map Process.size).sum = max + 1 then []
          else [Span.free (d + (ps.map Process.size).sum) max])
  | [], d => by
      by_cases h : d = max + 1
      · simp [LinkedList.shiftFrom, LinkedList.printFrom, h]
      · simp [LinkedList.shiftFrom, LinkedList.printFrom, h]
  | t :: rest, d => by
      have ih := printFrom_shiftFrom max rest (t.size + d - 1 + 1)
      have he : t.size + d - 1 + 1 + (rest.map Process.size).sum =
          d + (t.size + (rest.map Process.size).sum) := by omega
      rw [he] at ih
      simp only [LinkedList.shiftFrom, LinkedList.printFrom, if_true, List.map_cons,
        List.sum_cons, List.cons_append, ih]

theorem toString_compactProcesses (capacity : Int) (l : LinkedList) (lastByte : Int)
    (hcap : 1 ≤ capacity) :
    (l.compactProcesses lastByte).toString (capacity - 1) =
      (l.compactProcesses lastByte).head.map Process.toString ++
        (if (l.head.map Process.size).sum = capacity then []
          else [Span.free (l.head.map Process.size).sum (capacity - 1)]) := by
  rw [compactProcesses_eq]
  unfold LinkedList.toString
  cases hl : l.head with
  | nil =>
      have hne : ¬ ((0 : Int) = capacity) := by omega
      simp [LinkedList.shiftFrom, hne]
  | cons t rest =>
      have h := printFrom_shiftFrom (capacity - 1) (t :: rest) 0
      simp only [zero_add, sub_add_cancel] at h
      simp only []
      split
      · rename_i heq
        simp [LinkedList.shiftFrom] at heq
      · rename_i a b heq
        rw [← heq]
        exact h

theorem map_toString_isFree (ps : List Process) :
    ∀ s ∈ ps.map Process.toString, s.isFree = false := by
  intro s hs
  obtain ⟨r, _, rfl⟩ := List.mem_map.1 hs
  rfl

/-! ### Start of the run -/

theorem stoi_help (arg : String) (h : strcmp0 arg "-help" = true) :
    stoi arg = StoiResult.invalid_argument := by
  have hc : c_str arg = c_str "-help" := of_decide_eq_true h
  unfold stoi
  rw [hc]
  decide

theorem findSpotInList_empty (size max : Int) :
    LinkedList.empty.findSpotInList size max = if size ≤ max + 1 then 0 else -1 := rfl

theorem allocate_fresh (max : Int) (owner : String) (s : Int) :
    (s ≤ max + 1 →
      Allocator.allocate (Memory.new max) owner s =
        some { processes := { head := [⟨owner, s, 0, s - 1⟩], number := 0 }, max := max }) ∧
    (max + 1 < s → Allocator.allocate (Memory.new max) owner s = some (Memory.new max)) := by
  constructor
  · intro h
    have hf : (Memory.new max).findMemorySlot s = 0 := by
      show LinkedList.empty.findSpotInList s max = 0
      rw [findSpotInList_empty, if_pos h]
    have h0 : ¬ ((0 : Int) = -1) := by decide
    simp only [Allocator.allocate, hf, if_neg h0]
    rfl
  · intro h
    have hf : (Memory.new max).findMemorySlot s = -1 := by
      show LinkedList.empty.findSpotInList s max = -1
      rw [findSpotInList_empty, if_neg (by omega)]
    simp only [Allocator.allocate, hf, if_true]

/-! ### Owners of the regions -/

theorem linkAfter_owners (P : String → Prop) (p : Process) (hp : P p.processNumber) :
    ∀ (ps : List Process) (k : Nat) (qs : List Process),
      (∀ r ∈ ps, P r.processNumber) → LinkedList.linkAfter p ps k = some qs →
      ∀ r ∈ qs, P r.processNumber
  | [], _, _, _, h => by simp [LinkedList.linkAfter] at h
  | t :: rest, 0, qs, hps, h => by
      simp only [LinkedList.linkAfter, Option.some.injEq] at h
      subst h
      intro r hr
      rcases List.mem_cons.1 hr with rfl | hr
      · exact hps _ (List.mem_cons_self _ _)
      · rcases List.mem_cons.1 hr with rfl | hr
        · exact hp
        · exact hps r (List.mem_cons_of_mem _ hr)
  | t :: rest, k + 1, qs, hps, h => by
      simp only [LinkedList.linkAfter, Option.map_eq_some'] at h
      obtain ⟨q2, hq2, rfl⟩ := h
      have ih := linkAfter_owners P p hp rest k q2
        (fun r hr => hps r (List.mem_cons_of_mem _ hr)) hq2
      intro r hr
      rcases List.mem_cons.1 hr with rfl | hr
      · exact hps _ (List.mem_cons_self _ _)
      · exact ih r hr

theorem addProcessToList_owners (P : String → Prop) (l l2 : LinkedList) (p : Process)
    (position : Int) (hp : P p.processNumber) (hl : ∀ r ∈ l.head, P r.processNumber)
    (h : l.addProcessToList (some p) position = some l2) : ∀ r ∈ l2.head, P r.processNumber := by
  simp only [LinkedList.addProcessToList] at h
  by_cases h0 : position = 0
  · simp only [if_pos h0, Option.some.injEq] at h
    subst h
    intro r hr
    rcases List.mem_cons.1 hr with rfl | hr
    · exact hp
    · exact hl r hr
  · by_cases hneg : position < 0
    · simp [if_neg h0, if_pos hneg] at h
    · simp only [if_neg h0, if_neg hneg, Option.map_eq_some'] at h
      obtain ⟨qs, hqs, rfl⟩ := h
      exact linkAfter_owners P p hp l.head _ qs hl hqs

theorem allocate_owners (P : String → Prop) (m m2 : Memory) (name : String) (size : Int)
    (hp : P name) (hm : ∀ r ∈ m.processes.head, P r.processNumber)
    (h : Allocator.allocate m name size = some m2) :
    ∀ r ∈ m2.processes.head, P r.processNumber := by
  simp only [Allocator.allocate] at h
  by_cases hs : m.findMemorySlot size = -1
  · simp only [if_pos hs, Option.some.injEq] at h
    subst h
    exact hm
  · simp only [if_neg hs, Memory.addProcessToMemory, Option.map_eq_some'] at h
    obtain ⟨l2, hl2, rfl⟩ := h
    exact addProcessToList_owners P m.processes l2 (Process.new name size) _ hp hm hl2

theorem removeProcessFromMemory_owners (P : String → Prop) (m : Memory) (name : String)
    (hm : ∀ r ∈ m.processes.head, P r.processNumber) :
    ∀ r ∈ (m.removeProcessFromMemory name).2.processes.head, P r.processNumber := by
  have key : ∀ r ∈ (m.processes.removeProcessByNumber name false).2.head, P r.processNumber := by
    unfold LinkedList.removeProcessByNumber
    cases hu : LinkedList.unlinkFirst name m.processes.head with
    | none => exact hm
    | some res =>
        obtain ⟨sz, qs⟩ := res
        obtain ⟨before, x, after, h1, _, _, _, h5⟩ := unlinkFirst_some name _ sz qs hu
        intro r hr
        simp only [h5, Bool.false_eq_true, if_false] at hr
        refine hm r ?_
        rw [h1]
        rcases List.mem_append.1 hr with hr | hr
        · exact List.mem_append_left _ hr
        · exact List.mem_append_right _ (List.mem_cons_of_mem _ hr)
  unfold Memory.removeProcessFromMemory
  simp only []
  split <;> exact key

theorem compactMemory_owners (P : String → Prop) (m : Memory) (lastByte : Int)
    (hm : ∀ r ∈ m.processes.head, P r.processNumber) :
    ∀ r ∈ (m.compactMemory lastByte).processes.head, P r.processNumber := by
  intro r hr
  simp only [Memory.compactMemory, compactProcesses_eq] at hr
  have hmap := congrArg (List.map Prod.fst) (shiftFrom_owner_size m.processes.head 0)
  simp only [List.map_map] at hmap
  have hin : r.processNumber ∈
      (LinkedList.shiftFrom m.processes.head 0).map
        (Prod.fst ∘ fun r => (r.processNumber, r.size)) :=
    List.mem_map.2 ⟨r, hr, rfl⟩
  rw [hmap] at hin
  obtain ⟨x, hx, hxe⟩ := List.mem_map.1 hin
  simp only [Function.comp] at hxe
  rw [← hxe]
  exact hm x hx

/-! ### Reading an input line -/

theorem skipBlanks_run : ∀ (b rest : List Char), IsBlankRun b → rest ≠ [] →
    Allocator.skipBlanks (b ++ rest) = Allocator.skipBlanks rest
  | [], _, _, _ => rfl
  | c :: b, rest, hb, hr => by
      have hc : isBlank c = true := hb c (List.mem_cons_self _ _)
      have ih := skipBlanks_run b rest (fun x hx => hb x (List.mem_cons_of_mem _ hx)) hr
      cases hbr : b ++ rest with
      | nil =>
          have := List.append_eq_nil.1 hbr
          exact absurd this.2 hr
      | cons y tl =>
          rw [hbr] at ih
          simp only [List.cons_append, hbr, Allocator.skipBlanks, hc, if_true, ih]

theorem skipBlanks_stay (x : Char) (tl : List Char) (hx : isBlank x = false) :
    Allocator.skipBlanks (x :: tl) = x :: tl := by
  cases tl with
  | nil => rfl
  | cons y rest => simp [Allocator.skipBlanks, hx]

theorem readEntry_stops (rest : List Char) (h : Stops rest) :
    Allocator.readEntry rest = ([], rest) := by
  cases rest with
  | nil => rfl
  | cons x tl =>
      cases tl with
      | nil => rfl
      | cons y tl2 =>
          rcases h with h | ⟨x2, tl3, he, hb⟩
          · simp at h
          · simp only [List.cons.injEq] at he
            rw [← he.1] at hb
            simp [Allocator.readEntry, hb]

theorem readEntry_token : ∀ (t rest : List Char), (∀ c ∈ t, isBlank c = false) →
    Stops rest → Allocator.readEntry (t ++ rest) = (t, rest)
  | [], rest, _, hr => readEntry_stops rest hr
  | c :: t, rest, ht, hr => by
      have hc : isBlank c = false := ht c (List.mem_cons_self _ _)
      have ih := readEntry_token t rest (fun x hx => ht x (List.mem_cons_of_mem _ hx)) hr
      cases htr : t ++ rest with
      | nil =>
          have h2 := (List.append_eq_nil.1 htr).2
          subst h2
          rcases hr with h | ⟨x, tl, he, _⟩
          · simp at h
          · exact List.noConfusion he
      | cons y tl =>
          rw [htr] at ih
          simp only [List.cons_append, htr, Allocator.readEntry, hc, Bool.false_eq_true,
            if_false, ih]

theorem stops_layoutRest (more : List (List Char × List Char)) (trail : List Char)
    (hmore : ∀ p ∈ more, IsBlankRun p.1 ∧ p.1 ≠ [] ∧ IsToken p.2) (htrail : IsBlankRun trail) :
    Stops (layoutRest more trail ++ [NUL]) := by
  cases more with
  | nil =>
      cases trail with
      | nil => exact Or.inl rfl
      | cons c tl =>
          exact Or.inr ⟨c, tl ++ [NUL], rfl, htrail c (List.mem_cons_self _ _)⟩
  | cons p more2 =>
      obtain ⟨hb, hne, _⟩ := hmore p (List.mem_cons_self _ _)
      cases hp : p.1 with
      | nil => exact absurd hp hne
      | cons c tl =>
          refine Or.inr ⟨c, tl ++ p.2 ++ layoutRest more2 trail ++ [NUL], ?_, ?_⟩
          · simp [layoutRest, hp]
          · exact hb c (by rw [hp]; exact List.mem_cons_self _ _)

/-- Reading the next entry behind a token: the next token of the line, or
nothing at the end of the line. -/
theorem readEntry_next (more : List (List Char × List Char)) (trail : List Char)
    (hmore : ∀ p ∈ more, IsBlankRun p.1 ∧ p.1 ≠ [] ∧ IsToken p.2) (htrail : IsBlankRun trail) :
    Allocator.readEntry (Allocator.skipBlanks (layoutRest more trail ++ [NUL])) =
      match more with
      | [] => ([], [NUL])
      | p :: more2 => (p.2, layoutRest more2 trail ++ [NUL]) := by
  cases more with
  | nil =>
      simp only [layoutRest]
      rw [skipBlanks_run trail [NUL] htrail (by simp)]
      rfl
  | cons p more2 =>
      obtain ⟨hb, _, hne, htok⟩ := hmore p (List.mem_cons_self _ _)
      have hrest := stops_layoutRest more2 trail
        (fun q hq => hmore q (List.mem_cons_of_mem _ hq)) htrail
      simp only [layoutRest, List.append_assoc]
      rw [skipBlanks_run p.1 _ hb (by simp [hne])]
      cases hp : p.2 with
      | nil => exact absurd hp hne
      | cons c tl =>
          have hc : isBlank c = false := htok c (by rw [hp]; exact List.mem_cons_self _ _)
          rw [List.cons_append, skipBlanks_stay c _ hc, ← List.cons_append, ← hp]
          exact readEntry_token p.2 _ htok hrest

theorem readEntry_end :
    Allocator.readEntry (Allocator.skipBlanks [NUL]) = ([], [NUL]) := rfl

/-- Reading the first entry of a line. -/
theorem readEntry_first (lead t0 : List Char) (more : List (List Char × List Char))
    (trail : List Char) (h : WellSpaced lead t0 more trail) :
    Allocator.readEntry (Allocator.skipBlanks
        ((layoutLine lead t0 more trail).toList ++ [NUL])) =
      (t0, layoutRest more trail ++ [NUL]) := by
  obtain ⟨hlead, ⟨hne, htok⟩, hmore, htrail⟩ := h
  have hrest := stops_layoutRest more trail hmore htrail
  show Allocator.readEntry (Allocator.skipBlanks
    (lead ++ t0 ++ layoutRest more trail ++ [NUL])) = _
  simp only [List.append_assoc]
  rw [skipBlanks_run lead _ hlead (by simp [hne])]
  cases hp : t0 with
  | nil => exact absurd hp hne
  | cons c tl =>
      have hc : isBlank c = false := htok c (by rw [hp]; exact List.mem_cons_self _ _)
      rw [List.cons_append, skipBlanks_stay c _ hc, ← List.cons_append, ← hp]
      exact readEntry_token t0 _ htok hrest

/-- What `parseUserInput` returns on a well spaced line, by the tests of the
source on the first entry. -/
theorem parseUserInput_layout (lead t0 : List Char) (more : List (List Char × List Char))
    (trail : List Char) (h : WellSpaced lead t0 more trail) :
    Allocator.parseUserInput (layoutLine lead t0 more trail) =
      if strcmp0 (String.mk t0) "STAT" || strcmp0 (String.mk t0) "C" ||
          strcmp0 (String.mk t0) "QUIT" || strcmp0 (String.mk t0) "HELP" then
        [String.mk t0, "", "", ""]
      else if strcmp0 (String.mk t0) "RL" then
        [String.mk t0, furtherToken more 0, "", ""]
      else
        [String.mk t0, furtherToken more 0, furtherToken more 1, furtherToken more 2] := by
  have hfirst := readEntry_first lead t0 more trail h
  obtain ⟨_, _, hmore, htrail⟩ := h
  unfold Allocator.parseUserInput
  simp only [hfirst]
  split
  · rfl
  · rw [readEntry_next more trail hmore htrail]
    cases more with
    | nil =>
        simp only [readEntry_end]
        split <;> rfl
    | cons p1 more1 =>
        have hmore1 : ∀ p ∈ more1, IsBlankRun p.1 ∧ p.1 ≠ [] ∧ IsToken p.2 :=
          fun q hq => hmore q (List.mem_cons_of_mem _ hq)
        simp only []
        rw [readEntry_next more1 trail hmore1 htrail]
        cases more1 with
        | nil =>
            simp only [readEntry_end]
            split <;> rfl
        | cons p2 more2 =>
            have hmore2 : ∀ p ∈ more2, IsBlankRun p.1 ∧ p.1 ≠ [] ∧ IsToken p.2 :=
              fun q hq => hmore1 q (List.mem_cons_of_mem _ hq)
            simp only []
            rw [readEntry_next more2 trail hmore2 htrail]
            cases more2 with
            | nil => split <;> rfl
            | cons p3 more3 => split <;> rfl

theorem c_str_text (s : String) (h : ∀ c ∈ s.toList, c ≠ NUL) : c_str s = s.toList := by
  unfold c_str
  rw [List.takeWhile_eq_self_iff]
  intro c hc
  simpa using h c hc

/-- On text, that is on strings without `'\0'`, the test
`strcmp(s.c_str(), literal) == 0` is equality of the strings. -/
theorem strcmp0_text (s literal : String) (hs : ∀ c ∈ s.toList, c ≠ NUL)
    (hl : ∀ c ∈ literal.toList, c ≠ NUL) : strcmp0 s literal = decide (s = literal) := by
  unfold strcmp0
  rw [c_str_text s hs, c_str_text literal hl]
  by_cases h : s = literal
  · subst h
    simp
  · have : ¬ s.toList = literal.toList := fun he => h (String.ext he)
    simpa [h] using this

theorem skipBlanks_cases : ∀ s : List Char,
    (Allocator.skipBlanks s).length ≤ 1 ∨
      ∃ x y tl, Allocator.skipBlanks s = x :: y :: tl ∧ isBlank x = false
  | [] => Or.inl (by simp [Allocator.skipBlanks])
  | [_] => Or.inl (by simp [Allocator.skipBlanks])
  | x :: y :: rest => by
      by_cases hx : isBlank x = true
      · have ih := skipBlanks_cases (y :: rest)
        simpa only [Allocator.skipBlanks, hx, if_true] using ih
      · have hx2 : isBlank x = false := by simpa using hx
        exact Or.inr ⟨x, y, rest, by simp [Allocator.skipBlanks, hx2], hx2⟩

theorem readEntry_short (s : List Char) (h : s.length ≤ 1) :
    Allocator.readEntry (Allocator.skipBlanks s) = ([], s) := by
  cases s with
  | nil => rfl
  | cons x tl =>
      cases tl with
      | nil => rfl
      | cons y rest =>
          simp only [List.length_cons] at h
          omega

/-- An entry that is read empty is read at the end of the line. -/
theorem readEntry_empty (s : List Char)
    (h : (Allocator.readEntry (Allocator.skipBlanks s)).1 = []) :
    (Allocator.readEntry (Allocator.skipBlanks s)).2.length ≤ 1 := by
  rcases skipBlanks_cases s with hs | ⟨x, y, tl, he, hx⟩
  · cases hk : Allocator.skipBlanks s with
    | nil => simp [Allocator.readEntry]
    | cons a tl =>
        cases tl with
        | nil => simp [Allocator.readEntry]
        | cons b rest =>
            rw [hk] at hs
            simp only [List.length_cons] at hs
            omega
  · rw [he] at h
    simp [Allocator.readEntry, hx] at h

/-- A line whose fourth entry is `B` has a second entry that is not empty. -/
theorem parseUserInput_named (line : String)
    (h : (Allocator.parseUserInput line).getD 3 "" = "B") :
    (Allocator.parseUserInput line).getD 1 "" ≠ "" := by
  unfold Allocator.parseUserInput at h ⊢
  simp only [] at h ⊢
  split at h
  · simp at h
  · split at h
    · simp at h
    · rename_i h1 h2
      simp only [if_neg h1, if_neg h2]
      simp only [List.getD_cons_succ, List.getD_cons_zero] at h ⊢
      intro hempty
      generalize he0 : Allocator.readEntry (Allocator.skipBlanks (line.toList ++ [NUL])) = e0
        at h hempty
      have h1e : (Allocator.readEntry (Allocator.skipBlanks e0.2)).1 = [] := by
        have := congrArg String.toList hempty
        simpa using this
      have hlen := readEntry_empty e0.2 h1e
      rw [readEntry_short _ hlen] at h
      simp only [readEntry_short _ hlen] at h
      exact absurd h (by decide)

/-- Serving a line keeps the owners of all regions non-empty: a region is
only added by a line with four entries. -/
theorem serve_owners (m m2 : Memory) (line : String) (d : Bool)
    (hm : ∀ r ∈ m.processes.head, r.processNumber ≠ "")
    (h : Allocator.serve m line = some (m2, d)) :
    ∀ r ∈ m2.processes.head, r.processNumber ≠ "" := by
  have same : ∀ b : Bool, some (m, b) = some (m2, d) →
      ∀ r ∈ m2.processes.head, r.processNumber ≠ "" := by
    intro b hb
    simp only [Option.some.injEq, Prod.mk.injEq] at hb
    rw [← hb.1]
    exact hm
  unfold Allocator.serve at h
  simp only [] at h
  split at h
  · split at h
    · rename_i hB
      split at h
      · exact same _ h
      · exact Option.noConfusion h
      · split at h
        · exact same _ h
        · simp only [Option.map_eq_some', Prod.mk.injEq] at h
          obtain ⟨m3, hm3, he, _⟩ := h
          rw [← he]
          exact allocate_owners (fun s => s ≠ "") m m3 _ _ (parseUserInput_named line hB) hm hm3
    · exact same _ h
  · split at h
    · exact same _ h
    · split at h
      · simp only [Option.some.injEq, Prod.mk.injEq] at h
        rw [← h.1]
        exact removeProcessFromMemory_owners (fun s => s ≠ "") m _ hm
      · split at h
        · simp only [Option.some.injEq, Prod.mk.injEq] at h
          rw [← h.1]
          exact compactMemory_owners (fun s => s ≠ "") m _ hm
        · split at h
          · exact same _ h
          · split at h
            · exact same _ h
            · exact same _ h

theorem serveAll_owners : ∀ (lines : List String) (m m2 : Memory),
    (∀ r ∈ m.processes.head, r.processNumber ≠ "") →
    Allocator.serveAll m lines = some m2 → ∀ r ∈ m2.processes.head, r.processNumber ≠ ""
  | [], m, m2, hm, h => by
      simp only [Allocator.serveAll, Option.some.injEq] at h
      rw [← h]
      exact hm
  | line :: lines, m, m2, hm, h => by
      simp only [Allocator.serveAll] at h
      cases hs : Allocator.serve m line with
      | none => simp [hs] at h
      | some res =>
          obtain ⟨m1, d⟩ := res
          have h1 := serve_owners m m1 line d hm hs
          simp only [hs] at h
          cases d with
          | true =>
              simp only [if_true, Option.some.injEq] at h
              rw [← h]
              exact h1
          | false =>
              simp only [Bool.false_eq_true, if_false] at h
              exact serveAll_owners lines m1 m2 h1 h

theorem parseUserInput_first (line : String) :
    (Allocator.parseUserInput line).getD 0 "" =
      String.mk (Allocator.readEntry (Allocator.skipBlanks (line.toList ++ [NUL]))).1 := by
  unfold Allocator.parseUserInput
  simp only []
  split
  · rfl
  · split <;> rfl

/-- A line whose first entry is none of the six commands changes nothing. -/
theorem serve_unknown (m : Memory) (line : String)
    (h1 : strcmp0 ((Allocator.parseUserInput line).getD 0 "") "RQ" = false)
    (h2 : strcmp0 ((Allocator.parseUserInput line).getD 0 "") "HELP" = false)
    (h3 : strcmp0 ((Allocator.parseUserInput line).getD 0 "") "RL" = false)
    (h4 : strcmp0 ((Allocator.parseUserInput line).getD 0 "") "C" = false)
    (h5 : strcmp0 ((Allocator.parseUserInput line).getD 0 "") "STAT" = false)
    (h6 : strcmp0 ((Allocator.parseUserInput line).getD 0 "") "QUIT" = false) :
    Allocator.serve m line = some (m, false) := by
  unfold Allocator.serve
  simp only [h1, h2, h3, h4, h5, h6, Bool.false_eq_true, if_false]

/-- A line without any token changes nothing. -/
theorem serve_blank (m : Memory) (line : String) (hb : IsBlankRun line.toList) :
    Allocator.serve m line = some (m, false) := by
  have h0 : (Allocator.parseUserInput line).getD 0 "" = "" := by
    rw [parseUserInput_first, skipBlanks_run line.toList [NUL] hb (by simp)]
    rfl
  apply serve_unknown <;> rw [h0] <;> decide

/-- A request line whose fourth entry is not `B` changes nothing. -/
theorem serve_request_no_strategy (m : Memory) (line : String)
    (h1 : strcmp0 ((Allocator.parseUserInput line).getD 0 "") "RQ" = true)
    (h2 : (Allocator.parseUserInput line).getD 3 "" ≠ "B") :
    Allocator.serve m line = some (m, false) := by
  unfold Allocator.serve
  simp only [h1, if_true, if_neg h2]

theorem tokensOf_getD (t0 : List Char) (more : List (List Char × List Char)) (i : Nat) :
    (tokensOf t0 more).getD (i + 1) "" = furtherToken more i := by
  unfold tokensOf furtherToken
  simp only [List.getD_cons_succ]
  rw [List.getD_eq_getElem?_getD, List.getD_eq_getElem?_getD, List.getElem?_map,
    List.getElem?_map]
  cases more[i]? <;> rfl

theorem expectedEntries_eq (t0 : List Char) (more : List (List Char × List Char)) :
    expectedEntries (tokensOf t0 more) =
      if String.mk t0 = "STAT" ∨ String.mk t0 = "C" ∨ String.mk t0 = "QUIT" ∨
          String.mk t0 = "HELP" then
        [String.mk t0, "", "", ""]
      else if String.mk t0 = "RL" then
        [String.mk t0, furtherToken more 0, "", ""]
      else
        [String.mk t0, furtherToken more 0, furtherToken more 1, furtherToken more 2] := by
  unfold expectedEntries consumed
  simp only [tokensOf, List.headD_cons]
  split
  · simp
  · split
    · cases more with
      | nil => simp [furtherToken]
      | cons p more1 => simp [furtherToken]
    · cases more with
      | nil => simp [furtherToken]
      | cons p1 more1 =>
          cases more1 with
          | nil => simp [furtherToken]
          | cons p2 more2 =>
              cases more2 with
              | nil => simp [furtherToken]
              | cons p3 more3 => simp [furtherToken]

/-! ### Positions returned by the search, for every size -/

theorem scanGaps_range (size max : Int) : ∀ (ps : List Process) (c w g : Int),
    (LinkedList.scanGaps size max ps c w g).1 = w ∨
      (c ≤ (LinkedList.scanGaps size max ps c w g).1 ∧
        (LinkedList.scanGaps size max ps c w g).1 < c + ps.length)
  | [], c, w, g => Or.inl rfl
  | [t], c, w, g => by
      simp only [LinkedList.scanGaps]
      split
      · exact Or.inr ⟨le_refl _, by simp⟩
      · exact Or.inl rfl
  | t :: n :: rest, c, w, g => by
      have hlen : ((t :: n :: rest).length : Int) = ((n :: rest).length : Int) + 1 := by
        simp only [List.length_cons]
        omega
      simp only [LinkedList.scanGaps]
      split
      · split
        · rcases scanGaps_range size max (n :: rest) (c + 1) c
            (n.firstByte - t.lastByte - 1 - size) with h | h
          · exact Or.inr ⟨by rw [h], by rw [h]; omega⟩
          · exact Or.inr ⟨by omega, by omega⟩
        · rcases scanGaps_range size max (n :: rest) (c + 1) w g with h | h
          · exact Or.inl h
          · exact Or.inr ⟨by omega, by omega⟩
      · rcases scanGaps_range size max (n :: rest) (c + 1) w g with h | h
        · exact Or.inl h
        · exact Or.inr ⟨by omega, by omega⟩

/-- For every table and every size, `findSpotInList` returns -1 or one of
the positions `0 .. n`. -/
theorem findSpotInList_range (l : LinkedList) (size max : Int) :
    l.findSpotInList size max = -1 ∨
      (0 ≤ l.findSpotInList size max ∧ l.findSpotInList size max ≤ l.head.length) := by
  unfold LinkedList.findSpotInList
  cases hl : l.head with
  | nil =>
      simp only []
      split
      · exact Or.inr ⟨le_refl _, by simp⟩
      · exact Or.inl rfl
  | cons t rest =>
      simp only []
      generalize hst : (if t.firstByte ≠ 0 ∧ t.firstByte ≥ size then
        ((0 : Int), t.firstByte - size) else (-1, INT_MAX)) = start
      have hstart : start.1 = -1 ∨ start.1 = 0 := by
        rw [← hst]
        split
        · exact Or.inr rfl
        · exact Or.inl rfl
      rcases scanGaps_range size max (t :: rest) 1 start.1 start.2 with h | h
      · rw [h]
        rcases hstart with h0 | h0
        · exact Or.inl h0
        · exact Or.inr ⟨by omega, by rw [h0]; exact Int.natCast_nonneg _⟩
      · exact Or.inr ⟨by omega, by omega⟩

/-! ### The spans of the report -/

theorem toString_eq_printFrom (capacity : Int) (l : LinkedList) (hcap : 1 ≤ capacity) :
    l.toString (capacity - 1) = LinkedList.printFrom (capacity - 1) l.head 0 := by
  unfold LinkedList.toString
  cases hl : l.head with
  | nil =>
      have h : (0 : Int) ≠ capacity - 1 + 1 := by omega
      simp only [LinkedList.printFrom, if_pos h]
  | cons t rest => rfl

theorem printFrom_processes (max : Int) : ∀ (ps : List Process) (d : Int),
    (LinkedList.printFrom max ps d).filter (fun s => !s.isFree) = ps.map Process.toString
  | [], d => by
      have hf : (Span.free d max).isFree = true := rfl
      simp only [LinkedList.printFrom]
      split
      · simp only [List.filter_cons, hf, Bool.not_true, Bool.false_eq_true, if_false,
          List.filter_nil, List.map_nil]
      · rfl
  | t :: rest, d => by
      have ih := printFrom_processes max rest (t.lastByte + 1)
      have hp : t.toString.isFree = false := rfl
      have hf : (Span.free d (t.firstByte - 1)).isFree = true := rfl
      simp only [LinkedList.printFrom]
      split
      · simp only [List.filter_cons, hp, Bool.not_false, if_true, ih, List.map_cons]
      · simp only [List.filter_cons, hp, hf, Bool.not_false, Bool.not_true, Bool.false_eq_true,
          if_false, if_true, ih, List.map_cons]

theorem printFrom_free (max : Int) : ∀ (ps : List Process) (d : Int), ChainFrom max d ps →
    (LinkedList.printFrom max ps d).filter Span.isFree =
      ((gapsFrom max d ps).filter (fun g => decide (0 < g.2))).map
        (fun g => Span.free g.1 (g.1 + g.2 - 1))
  | [], d, hc => by
      simp only [ChainFrom] at hc
      simp only [LinkedList.printFrom, gapsFrom]
      by_cases hd : d ≠ max + 1
      · have hpos : 0 < max + 1 - d := by omega
        have he : d + (max + 1 - d) - 1 = max := by omega
        simp [if_pos hd, Span.isFree, hpos, he]
      · have hpos : ¬ 0 < max + 1 - d := by omega
        simp [if_neg hd, hpos]
  | t :: rest, d, hc => by
      simp only [ChainFrom] at hc
      have ih := printFrom_free max rest (t.lastByte + 1) hc.2.2.2
      simp only [LinkedList.printFrom, gapsFrom]
      by_cases hd : t.firstByte = d
      · have hpos : ¬ 0 < t.firstByte - d := by omega
        simp [if_pos hd, Span.isFree, Process.toString, hpos, ih]
      · have hpos : 0 < t.firstByte - d := by omega
        have he : d + (t.firstByte - d) - 1 = t.firstByte - 1 := by omega
        simp [if_neg hd, Span.isFree, Process.toString, hpos, he, ih]

theorem gapsFrom_length (max : Int) : ∀ (ps : List Process) (d : Int),
    (gapsFrom max d ps).length = ps.length + 1
  | [], _ => rfl
  | t :: rest, d => by
      simp only [gapsFrom, List.length_cons, gapsFrom_length max rest]

theorem gapsFrom_succ (max : Int) : ∀ (ps : List Process) (d : Int) (k : Nat),
    k < ps.length →
    (gapsFrom max d ps)[k + 1]? = some (gapStart ps (k + 1), gapSize ps max (k + 1))
  | [], _, k, h => by simp at h
  | t :: rest, d, 0, _ => by
      cases rest with
      | nil =>
          have he : max + 1 - (t.lastByte + 1) = max - t.lastByte := by omega
          simp [gapsFrom, gapStart, gapSize, he]
      | cons b rest2 =>
          have he : b.firstByte - (t.lastByte + 1) = b.firstByte - t.lastByte - 1 := by omega
          simp [gapsFrom, gapStart, gapSize, he]
  | t :: rest, d, k + 1, h => by
      have hk : k < rest.length := by
        simp only [List.length_cons] at h
        omega
      have ih := gapsFrom_succ max rest (t.lastByte + 1) k hk
      simp only [gapsFrom, List.getElem?_cons_succ, ih]
      simp only [gapStart, gapSize, List.getElem?_cons_succ]

theorem gapsFrom_eq_range (max : Int) (ps : List Process) :
    gapsFrom max 0 ps =
      (List.range (ps.length + 1)).map (fun q => (gapStart ps q, gapSize ps max q)) := by
  apply List.ext_getElem?
  intro i
  rw [List.getElem?_map]
  cases i with
  | zero =>
      rw [List.getElem?_range (by omega)]
      cases ps with
      | nil => simp [gapsFrom, gapStart, gapSize]
      | cons t rest => simp [gapsFrom, gapStart, gapSize]
  | succ k =>
      by_cases hk : k < ps.length
      · rw [List.getElem?_range (by omega), gapsFrom_succ max ps 0 k hk]
        rfl
      · rw [List.getElem?_eq_none (by rw [gapsFrom_length]; omega),
          List.getElem?_eq_none (by rw [List.length_range]; omega)]
        rfl

theorem printFrom_free_spans (max : Int) (ps : List Process) (hc : ChainFrom max 0 ps) :
    (LinkedList.printFrom max ps 0).filter Span.isFree = expectedFreeSpans ps max := by
  rw [printFrom_free max ps 0 hc, gapsFrom_eq_range, List.filter_map, List.map_map]
  rfl

theorem printFrom_no_double_free (max : Int) : ∀ (ps : List Process) (d : Int),
    (LinkedList.printFrom max ps d).Chain' (fun a b => ¬ (a.isFree = true ∧ b.isFree = true))
  | [], d => by
      simp only [LinkedList.printFrom]
      split
      · exact List.chain'_singleton _
      · exact List.chain'_nil
  | t :: rest, d => by
      have ih := printFrom_no_double_free max rest (t.lastByte + 1)
      have hproc : (LinkedList.printFrom max rest (t.lastByte + 1)).Chain'
          (fun a b => ¬ (a.isFree = true ∧ b.isFree = true)) →
          (t.toString :: LinkedList.printFrom max rest (t.lastByte + 1)).Chain'
            (fun a b => ¬ (a.isFree = true ∧ b.isFree = true)) := by
        intro h
        refine List.chain'_cons'.2 ⟨?_, h⟩
        intro b _ hb
        exact Bool.noConfusion hb.1
      simp only [LinkedList.printFrom]
      split
      · exact hproc ih
      · refine List.chain'_cons.2 ⟨?_, hproc ih⟩
        intro hb
        exact Bool.noConfusion hb.2

theorem tiles_nonempty (hi : Int) : ∀ (spans : List Span) (lo : Int), Tiles hi lo spans →
    ∀ s ∈ spans, s.first ≤ s.last
  | [], _, _, s, hs => by simp at hs
  | u :: rest, lo, h, s, hs => by
      simp only [Tiles] at h
      rcases List.mem_cons.1 hs with rfl | hs
      · exact h.2.1
      · exact tiles_nonempty hi rest _ h.2.2 s hs

/-! ### The gaps of a compacted table -/

theorem gapsFrom_shiftFrom (max : Int) : ∀ (ps : List Process) (d : Int),
    gapsFrom max d (LinkedList.shiftFrom ps d) =
      (LinkedList.shiftFrom ps d).map (fun r => (r.firstByte, (0 : Int))) ++
        [(d + (ps.map Process.size).sum, max + 1 - (d + (ps.map Process.size).sum))]
  | [], d => by
      simp [LinkedList.shiftFrom, gapsFrom]
  | t :: rest, d => by
      have ih := gapsFrom_shiftFrom max rest (t.size + d - 1 + 1)
      have he : t.size + d - 1 + 1 + (rest.map Process.size).sum =
          d + (t.size + (rest.map Process.size).sum) := by omega
      rw [he] at ih
      simp only [LinkedList.shiftFrom, gapsFrom, ih, List.map_cons, List.sum_cons,
        List.cons_append, sub_self]

/-- In a compacted table every gap but the one behind the last region is
empty; that one starts at the sum of the sizes and reaches up to `max`. -/
theorem gaps_compacted (max : Int) (ps : List Process) :
    (∀ q : Nat, q < ps.length → gapSize (LinkedList.shiftFrom ps 0) max q = 0) ∧
    gapSize (LinkedList.shiftFrom ps 0) max ps.length = max + 1 - (ps.map Process.size).sum ∧
    gapStart (LinkedList.shiftFrom ps 0) ps.length = (ps.map Process.size).sum := by
  have hlen := shiftFrom_length ps 0
  have h := gapsFrom_shiftFrom max ps 0
  rw [gapsFrom_eq_range, hlen] at h
  simp only [zero_add] at h
  have hget : ∀ q : Nat, q ≤ ps.length →
      some (gapStart (LinkedList.shiftFrom ps 0) q, gapSize (LinkedList.shiftFrom ps 0) max q) =
        ((LinkedList.shiftFrom ps 0).map (fun r => (r.firstByte, (0 : Int))) ++
          [((ps.map Process.size).sum, max + 1 - (ps.map Process.size).sum)])[q]? := by
    intro q hq
    rw [← h, List.getElem?_map, List.getElem?_range (by omega)]
    rfl
  refine ⟨?_, ?_, ?_⟩
  · intro q hq
    have h1 := hget q (by omega)
    have hq2 : q < ((LinkedList.shiftFrom ps 0).map (fun r => (r.firstByte, (0 : Int)))).length := by
      rw [List.length_map, hlen]
      exact hq
    rw [List.getElem?_append_left hq2, List.getElem?_map] at h1
    cases hx : (LinkedList.shiftFrom ps 0)[q]? with
    | none =>
        rw [hx] at h1
        exact Option.noConfusion h1
    | some r =>
        rw [hx] at h1
        simp only [Option.map_some', Option.some.injEq, Prod.mk.injEq] at h1
        exact h1.2
  · have h1 := hget ps.length (le_refl _)
    rw [List.getElem?_append_right (by rw [List.length_map, hlen]), List.length_map, hlen,
      Nat.sub_self] at h1
    simp only [List.getElem?_cons_zero, Option.some.injEq, Prod.mk.injEq] at h1
    exact h1.2
  · have h1 := hget ps.length (le_refl _)
    rw [List.getElem?_append_right (by rw [List.length_map, hlen]), List.length_map, hlen,
      Nat.sub_self] at h1
    simp only [List.getElem?_cons_zero, Option.some.injEq, Prod.mk.injEq] at h1
    exact h1.1

/-! ### Lines that are not commands -/

/-- Lines that leave every table reached by serving input lines unchanged:
the lines without any token, every line whose first token holds no `'\0'`
and is not one of `RQ`, `RL`, `STAT`, `C`, `QUIT`, `HELP`, every `RQ` line
with fewer than four tokens, every `RQ` line whose fourth token is not
exactly `B`, and every `RL` line without a name token. -/
theorem malformed_line_leaves_table (start : Int) (history : List String) (m : Memory)
    (hreach : Allocator.serveAll (Memory.new start) history = some m) :
    (∀ line : String, IsBlankRun line.toList → Allocator.serve m line = some (m, false)) ∧
    ∀ (lead t0 : List Char) (more : List (List Char × List Char)) (trail : List Char),
      WellSpaced lead t0 more trail →
      ((∀ c ∈ t0, c ≠ NUL) →
        String.mk t0 ∉ ["RQ", "RL", "STAT", "C", "QUIT", "HELP"] →
        Allocator.serve m (layoutLine lead t0 more trail) = some (m, false)) ∧
      (String.mk t0 = "RQ" → (tokensOf t0 more).length < 4 →
        Allocator.serve m (layoutLine lead t0 more trail) = some (m, false)) ∧
      (String.mk t0 = "RQ" → (tokensOf t0 more).getD 3 "" ≠ "B" →
        Allocator.serve m (layoutLine lead t0 more trail) = some (m, false)) ∧
      (String.mk t0 = "RL" → more = [] →
        Allocator.serve m (layoutLine lead t0 more trail) = some (m, false)) := by
  have hnames : ∀ r ∈ m.processes.head, r.processNumber ≠ "" :=
    serveAll_owners history (Memory.new start) m (by simp [Memory.new, LinkedList.empty]) hreach
  refine ⟨fun line hb => serve_blank m line hb, ?_⟩
  intro lead t0 more trail hws
  have hparse := parseUserInput_layout lead t0 more trail hws
  have hrq : String.mk t0 = "RQ" → (tokensOf t0 more).getD 3 "" ≠ "B" →
      Allocator.serve m (layoutLine lead t0 more trail) = some (m, false) := by
    intro ht h4
    rw [ht] at hparse
    have hk : (strcmp0 "RQ" "STAT" || strcmp0 "RQ" "C" || strcmp0 "RQ" "QUIT" ||
        strcmp0 "RQ" "HELP") = false := by decide
    have hl : strcmp0 "RQ" "RL" = false := by decide
    simp only [hk, hl, Bool.false_eq_true, if_false] at hparse
    apply serve_request_no_strategy
    · rw [hparse]
      show strcmp0 "RQ" "RQ" = true
      decide
    · rw [hparse]
      show furtherToken more 2 ≠ "B"
      rw [← tokensOf_getD t0 more 2]
      exact h4
  refine ⟨?_, ?_, hrq, ?_⟩
  · intro hnul hnot
    have h0 : (Allocator.parseUserInput (layoutLine lead t0 more trail)).getD 0 "" =
        String.mk t0 := by
      rw [parseUserInput_first, readEntry_first lead t0 more trail hws]
    have htext : ∀ c ∈ (String.mk t0).toList, c ≠ NUL := hnul
    simp only [List.mem_cons, List.mem_singleton, List.not_mem_nil, or_false, not_or] at hnot
    apply serve_unknown <;> rw [h0, strcmp0_text _ _ htext (by decide)] <;> simp [hnot]
  · intro ht hlen
    refine hrq ht ?_
    have : (tokensOf t0 more).getD 3 "" = "" := by
      rw [List.getD_eq_getElem?_getD, List.getElem?_eq_none (by omega)]
      rfl
    rw [this]
    decide
  · intro ht hmore
    subst hmore
    rw [ht] at hparse
    have hk : (strcmp0 "RL" "STAT" || strcmp0 "RL" "C" || strcmp0 "RL" "QUIT" ||
        strcmp0 "RL" "HELP") = false := by decide
    have hl : strcmp0 "RL" "RL" = true := by decide
    simp only [hk, hl, Bool.false_eq_true, if_false, if_true] at hparse
    have hrel := (release_absent m "" hnames).2
    unfold Allocator.serve
    rw [hparse]
    have e0 : (["RL", furtherToken [] 0, "", ""] : List String).getD 0 "" = "RL" := rfl
    have e1 : (["RL", furtherToken [] 0, "", ""] : List String).getD 1 "" = "" := rfl
    have c1 : strcmp0 "RL" "RQ" = false := by decide
    have c2 : strcmp0 "RL" "HELP" = false := by decide
    simp only [e0, e1, c1, c2, hl, Bool.false_eq_true, if_false, if_true, hrel]

/-- On a line made of tokens that are separated by non-empty runs of spaces
and tabs, with optional leading and trailing spaces and tabs, and whose first
token holds no `'\0'`, `parseUserInput` returns an array of four entries:
first the tokens that the command consumes (1 for `STAT`, `C`, `QUIT`,
`HELP`; 2 for `RL`; up to 4 otherwise), then empty strings.  The result is
the same for every other spacing of the same tokens. -/
theorem parseUserInput_entries (lead t0 : List Char) (more : List (List Char × List Char))
    (trail : List Char) (hws : WellSpaced lead t0 more trail) (htext : ∀ c ∈ t0, c ≠ NUL) :
    Allocator.parseUserInput (layoutLine lead t0 more trail) =
        expectedEntries (tokensOf t0 more) ∧
      (Allocator.parseUserInput (layoutLine lead t0 more trail)).length = 4 ∧
      ∀ (lead2 : List Char) (more2 : List (List Char × List Char)) (trail2 : List Char),
        WellSpaced lead2 t0 more2 trail2 → tokensOf t0 more2 = tokensOf t0 more →
        Allocator.parseUserInput (layoutLine lead2 t0 more2 trail2) =
          Allocator.parseUserInput (layoutLine lead t0 more trail) := by
  have key : ∀ (lead3 : List Char) (more3 : List (List Char × List Char)) (trail3 : List Char),
      WellSpaced lead3 t0 more3 trail3 →
      Allocator.parseUserInput (layoutLine lead3 t0 more3 trail3) =
        expectedEntries (tokensOf t0 more3) := by
    intro lead3 more3 trail3 h3
    have ht : ∀ c ∈ (String.mk t0).toList, c ≠ NUL := htext
    rw [parseUserInput_layout lead3 t0 more3 trail3 h3, expectedEntries_eq,
      strcmp0_text _ "STAT" ht (by decide), strcmp0_text _ "C" ht (by decide),
      strcmp0_text _ "QUIT" ht (by decide), strcmp0_text _ "HELP" ht (by decide),
      strcmp0_text _ "RL" ht (by decide)]
    simp only [Bool.or_eq_true, decide_eq_true_eq, or_assoc]
  refine ⟨key lead more trail hws, ?_, ?_⟩
  · rw [parseUserInput_layout lead t0 more trail hws]
    split
    · rfl
    · split <;> rfl
  · intro lead2 more2 trail2 h2 htok
    rw [key lead2 more2 trail2 h2, key lead more trail hws, htok]

/-! ## The claims -/

/-- C1: for every capacity of at least 1 and every finite sequence of
requests of size at least 1, releases and compactions served from the empty
table, every command returns and the resulting table satisfies invariants 1
to 4: distinct regions are disjoint, every region lies in
`[0, capacity - 1]`, the list is strictly ascending in `firstByte`, and
every region has `size = lastByte - firstByte + 1`. -/
theorem invariants_after_every_sequence (capacity : Int) (ops : List Op)
    (hcap : 1 ≤ capacity) (hvalid : ∀ op ∈ ops, ValidOp op) :
    ∃ m : Memory, Allocator.runOps (Memory.new (capacity - 1)) ops = some m ∧
      NonOverlap m.processes.head ∧ InBounds capacity m.processes.head ∧
      Ascending m.processes.head ∧ SizeExact m.processes.head := by
  obtain ⟨m, hm, _, _, h1, h2, h3, h4⟩ := runOps_tableInv capacity hcap ops hvalid
  exact ⟨m, hm, h1, h2, h3, h4⟩

theorem invariants_after_every_sequence_witness :
    (1 : Int) ≤ 10 ∧
    (∀ op ∈ [Op.allocate "A" 4, Op.allocate "B" 3, Op.release "A", Op.allocate "C" 2,
        Op.compact], ValidOp op) ∧
    ∃ m : Memory, Allocator.runOps (Memory.new (10 - 1))
        [Op.allocate "A" 4, Op.allocate "B" 3, Op.release "A", Op.allocate "C" 2,
          Op.compact] = some m ∧
      NonOverlap m.processes.head ∧ InBounds 10 m.processes.head ∧
      Ascending m.processes.head ∧ SizeExact m.processes.head :=
  ⟨by decide, by decide,
    invariants_after_every_sequence 10 _ (by decide) (by decide)⟩

/-- C2: for every table of the data model, and so for every table reached
from the empty table by valid commands, the report `toString(capacity - 1)`
is an exact partition of `[0, capacity - 1]`: the first span starts at 0,
each following span starts at the end of the previous one plus 1, the last
span ends at `capacity - 1`, and every address lies in exactly one span.  For
the empty table the report is the single span `[0, capacity - 1]` labelled
Free. -/
theorem report_is_exact_partition (capacity : Int) (l : LinkedList) (hcap : 1 ≤ capacity)
    (h : TableInv capacity l.head ∨
      ∃ ops : List Op, (∀ op ∈ ops, ValidOp op) ∧
        (Allocator.runOps (Memory.new (capacity - 1)) ops).map Memory.processes = some l) :
    ExactPartition (l.toString (capacity - 1)) (capacity - 1) ∧
      (l.head = [] → l.toString (capacity - 1) = [Span.free 0 (capacity - 1)]) := by
  have hinv : TableInv capacity l.head := by
    rcases h with h | ⟨ops, hv, hr⟩
    · exact h
    · obtain ⟨m, hm, _, hi⟩ := runOps_tableInv capacity hcap ops hv
      rw [hm] at hr
      simp only [Option.map_some', Option.some.injEq] at hr
      rw [← hr]
      exact hi
  have hc := tableInv_chainFrom capacity l.head (by omega) hinv
  refine ⟨tiles_exactPartition (capacity - 1) _
    (toString_tiles (capacity - 1) l (by omega) hc) (by omega), ?_⟩
  intro he
  simp [LinkedList.toString, he]

theorem report_is_exact_partition_witness :
    ExactPartition (sampleFragmented.toString (12 - 1)) (12 - 1) ∧
      (sampleFragmented.head = [] →
        sampleFragmented.toString (12 - 1) = [Span.free 0 (12 - 1)]) :=
  report_is_exact_partition 12 sampleFragmented (by decide) (Or.inl (by decide))

/-- C3: for every table of the data model (capacity an `int`) and every size
of at least 1, when `findSpotInList(size, capacity - 1)` returns a position
`p` other than -1, `p` is one of the positions `0 .. n`, the free gap at
position `p` holds `size`, and no free gap that holds `size` has a smaller
leftover `gap_size - size`. -/
theorem findSpotInList_least_leftover (capacity size : Int) (l : LinkedList) (p : Int)
    (hcap : capacity ≤ INT_MAX) (hinv : TableInv capacity l.head) (hsize : 1 ≤ size)
    (hp : l.findSpotInList size (capacity - 1) = p) (hne : p ≠ -1) :
    0 ≤ p ∧ p ≤ l.head.length ∧ size ≤ gapSize l.head (capacity - 1) p.toNat ∧
      ∀ q : Nat, q ≤ l.head.length → size ≤ gapSize l.head (capacity - 1) q →
        gapSize l.head (capacity - 1) p.toNat - size ≤ gapSize l.head (capacity - 1) q - size := by
  rcases findSpotInList_cases capacity size l hcap hinv hsize with ⟨he, _⟩ | ⟨i, hi, he, hfit, _, hmin⟩
  · rw [he] at hp
    exact absurd hp.symm hne
  · rw [he] at hp
    subst hp
    simp only [Int.toNat_ofNat]
    refine ⟨by omega, by omega, hfit, ?_⟩
    intro q hq hs
    have := hmin q hq hs
    omega

theorem findSpotInList_least_leftover_witness :
    (0 : Int) ≤ 2 ∧ (2 : Int) ≤ sampleFragmented.head.length ∧
      (1 : Int) ≤ gapSize sampleFragmented.head (12 - 1) (2 : Int).toNat ∧
      ∀ q : Nat, q ≤ sampleFragmented.head.length →
        (1 : Int) ≤ gapSize sampleFragmented.head (12 - 1) q →
        gapSize sampleFragmented.head (12 - 1) (2 : Int).toNat - 1 ≤
          gapSize sampleFragmented.head (12 - 1) q - 1 :=
  findSpotInList_least_leftover 12 1 sampleFragmented 2 (by decide) (by decide) (by decide)
    (by decide) (by decide)

/-- C4: for every table of the data model (capacity an `int`) and every size
of at least 1, when `findSpotInList` returns a position `p` other than -1,
`p` is the best fit with the tie-break of the specification and the only
such position: the gap at `p` holds `size`, no gap that holds `size` has a
smaller leftover, and every gap that holds `size` and is not larger than the
gap at `p` (so every gap of the same size, hence of the same, least,
leftover) is at a position that is not before `p` and starts at an address
that is not below the start of the gap at `p`.  Of the gaps with the least
leftover the one at the lowest address is returned. -/
theorem findSpotInList_tie_lowest_address (capacity size : Int) (l : LinkedList) (p : Int)
    (hcap : capacity ≤ INT_MAX) (hinv : TableInv capacity l.head) (hsize : 1 ≤ size)
    (hp : l.findSpotInList size (capacity - 1) = p) (hne : p ≠ -1) :
    0 ≤ p ∧ p ≤ l.head.length ∧
    size ≤ gapSize l.head (capacity - 1) p.toNat ∧
    (∀ q : Nat, q ≤ l.head.length → size ≤ gapSize l.head (capacity - 1) q →
      gapSize l.head (capacity - 1) p.toNat - size ≤ gapSize l.head (capacity - 1) q - size) ∧
    (∀ q : Nat, q ≤ l.head.length → size ≤ gapSize l.head (capacity - 1) q →
      gapSize l.head (capacity - 1) q ≤ gapSize l.head (capacity - 1) p.toNat →
      p.toNat ≤ q ∧ gapStart l.head p.toNat ≤ gapStart l.head q) ∧
    (∀ q : Nat, q < p.toNat → size ≤ gapSize l.head (capacity - 1) q →
      gapSize l.head (capacity - 1) p.toNat < gapSize l.head (capacity - 1) q) ∧
    BestFitAt l.head (capacity - 1) size p.toNat ∧
    (∀ q : Nat, BestFitAt l.head (capacity - 1) size q → q = p.toNat) := by
  rcases findSpotInList_cases capacity size l hcap hinv hsize with
    ⟨he, _⟩ | ⟨i, hi, he, hfit, hfirst, hmin⟩
  · rw [he] at hp
    exact absurd hp.symm hne
  · rw [he] at hp
    subst hp
    simp only [Int.toNat_ofNat]
    have hcap0 : 0 ≤ capacity := by
      have := freeGaps_le capacity l.head hinv _
        (List.getElem?_mem (freeGaps_getElem l.head (capacity - 1) i hi))
      omega
    have hc := tableInv_chainFrom capacity l.head hcap0 hinv
    have hleast : ∀ q : Nat, q ≤ l.head.length → size ≤ gapSize l.head (capacity - 1) q →
        gapSize l.head (capacity - 1) i - size ≤ gapSize l.head (capacity - 1) q - size := by
      intro q hq hs
      have := hmin q hq hs
      omega
    have hlow : ∀ q : Nat, q ≤ l.head.length → size ≤ gapSize l.head (capacity - 1) q →
        gapSize l.head (capacity - 1) q ≤ gapSize l.head (capacity - 1) i →
        i ≤ q ∧ gapStart l.head i ≤ gapStart l.head q := by
      intro q hq hs hle
      have hiq : i ≤ q := by
        by_contra hcn
        have := hfirst q (by omega) hs
        omega
      exact ⟨hiq, gapStart_mono (capacity - 1) l.head hc i q hiq hq⟩
    refine ⟨by omega, by omega, hfit, hleast, hlow, hfirst, ⟨hi, hfit, hleast, ?_⟩, ?_⟩
    · intro j hj hs he2
      exact hlow j hj hs (by omega)
    · intro q hq
      obtain ⟨hq1, hq2, hq3, hq4⟩ := hq
      have h1 := hq3 i hi hfit
      have h2 := hmin q hq1 hq2
      have hqi : q ≤ i := (hq4 i hi hfit (by omega)).1
      have hiq : i ≤ q := (hlow q hq1 hq2 (by omega)).1
      omega

theorem findSpotInList_tie_lowest_address_witness :
    sampleTieBehind.findSpotInList 2 (11 - 1) = 1 ∧
    ((0 : Int) ≤ 1 ∧ (1 : Int) ≤ sampleTieBehind.head.length ∧
    (2 : Int) ≤ gapSize sampleTieBehind.head (11 - 1) (1 : Int).toNat ∧
    (∀ q : Nat, q ≤ sampleTieBehind.head.length →
      (2 : Int) ≤ gapSize sampleTieBehind.head (11 - 1) q →
      gapSize sampleTieBehind.head (11 - 1) (1 : Int).toNat - 2 ≤
        gapSize sampleTieBehind.head (11 - 1) q - 2) ∧
    (∀ q : Nat, q ≤ sampleTieBehind.head.length →
      (2 : Int) ≤ gapSize sampleTieBehind.head (11 - 1) q →
      gapSize sampleTieBehind.head (11 - 1) q ≤
        gapSize sampleTieBehind.head (11 - 1) (1 : Int).toNat →
      (1 : Int).toNat ≤ q ∧
        gapStart sampleTieBehind.head (1 : Int).toNat ≤ gapStart sampleTieBehind.head q) ∧
    (∀ q : Nat, q < (1 : Int).toNat → (2 : Int) ≤ gapSize sampleTieBehind.head (11 - 1) q →
      gapSize sampleTieBehind.head (11 - 1) (1 : Int).toNat <
        gapSize sampleTieBehind.head (11 - 1) q) ∧
    BestFitAt sampleTieBehind.head (11 - 1) 2 (1 : Int).toNat ∧
    (∀ q : Nat, BestFitAt sampleTieBehind.head (11 - 1) 2 q → q = (1 : Int).toNat)) :=
  ⟨by decide, findSpotInList_tie_lowest_address 11 2 sampleTieBehind 1 (by decide) (by decide)
    (by decide) (by decide) (by decide)⟩

/-- C5: for every table of the data model (capacity an `int`, in particular
every capacity of at least 1) and every size of at least 1, `findSpotInList(size, capacity - 1)`
returns -1 if and only if no free gap (before the first region, between
consecutive regions, behind the last region, or the whole space of the empty
table) holds `size`; on the empty table it returns -1 exactly when
`size > capacity`. -/
theorem findSpotInList_none_iff (capacity size : Int) (l : LinkedList)
    (hcap : capacity ≤ INT_MAX) (hinv : TableInv capacity l.head) (hsize : 1 ≤ size) :
    (l.findSpotInList size (capacity - 1) = -1 ↔
      ∀ q : Nat, q ≤ l.head.length → gapSize l.head (capacity - 1) q < size) ∧
    (l.head = [] → (l.findSpotInList size (capacity - 1) = -1 ↔ capacity < size)) := by
  constructor
  · rcases findSpotInList_cases capacity size l hcap hinv hsize with ⟨he, hno⟩ | ⟨i, hi, he, hfit, _, _⟩
    · exact ⟨fun _ => hno, fun _ => he⟩
    · constructor
      · intro h
        rw [he] at h
        omega
      · intro h
        have := h i hi
        omega
  · intro hl
    unfold LinkedList.findSpotInList
    rw [hl]
    by_cases hs : size ≤ capacity - 1 + 1
    · simp only [if_pos hs]
      constructor
      · intro h
        exact absurd h (by decide)
      · intro h
        omega
    · simp only [if_neg hs]
      constructor
      · intro _
        omega
      · intro _
        trivial

theorem findSpotInList_none_iff_witness :
    (sampleFull.findSpotInList 1 (12 - 1) = -1 ↔
      ∀ q : Nat, q ≤ sampleFull.head.length → gapSize sampleFull.head (12 - 1) q < 1) ∧
    (sampleFull.head = [] → (sampleFull.findSpotInList 1 (12 - 1) = -1 ↔ (12 : Int) < 1)) :=
  findSpotInList_none_iff 12 1 sampleFull (by decide) (by decide) (by decide)

/-- C6: for every table, owner and size of at least 1 for which
`findSpotInList` returns a position `p` other than -1,
`addProcessToList(new Process(owner, size), p)` returns, and the table
afterwards is the old region sequence with exactly one new region at list
index `p`: the regions before and behind it are the old ones, unchanged and
in the same order; the new region has the given owner and size, its
`firstByte` is the first address of the gap at `p` (0 for `p = 0`, otherwise
`lastByte` of region `p - 1` plus 1) and its `lastByte` is
`firstByte + size - 1`. -/
theorem addProcessToList_inserts_at_position (l : LinkedList) (owner : String)
    (size max p : Int) (hsize : 1 ≤ size) (hp : l.findSpotInList size max = p) (hne : p ≠ -1) :
    ∃ (l2 : LinkedList) (r : Process),
      l.addProcessToList (some (Process.new owner size)) p = some l2 ∧
      0 ≤ p ∧ p ≤ l.head.length ∧
      l2.head = l.head.take p.toNat ++ r :: l.head.drop p.toNat ∧
      r.processNumber = owner ∧ r.size = size ∧
      r.firstByte = gapStart l.head p.toNat ∧
      (p = 0 → r.firstByte = 0) ∧
      (0 < p → ∃ a : Process, l.head[p.toNat - 1]? = some a ∧ r.firstByte = a.lastByte + 1) ∧
      r.lastByte = r.firstByte + size - 1 := by
  rcases findSpotInList_fit l size max hsize with he | ⟨i, hi, he, _⟩
  · rw [he] at hp
    exact absurd hp.symm hne
  · rw [he] at hp
    subst hp
    obtain ⟨l2, hadd, hshape⟩ := addProcessToList_shape l owner size i hi
    refine ⟨l2, placed l.head owner size i, hadd, by omega, by omega, ?_, rfl, rfl, ?_, ?_, ?_,
      rfl⟩
    · simpa only [Int.toNat_ofNat] using hshape
    · simp only [Int.toNat_ofNat, placed]
    · intro h0
      have : i = 0 := by omega
      subst this
      rfl
    · intro hpos
      cases i with
      | zero => simp at hpos
      | succ k =>
          have hk : k < l.head.length := by omega
          refine ⟨l.head[k], ?_, ?_⟩
          · simp only [Int.toNat_ofNat, Nat.add_sub_cancel, List.getElem?_eq_getElem hk]
          · simp only [placed, gapStart, List.getElem?_eq_getElem hk]

theorem addProcessToList_inserts_at_position_witness :
    ∃ (l2 : LinkedList) (r : Process),
      sampleFragmented.addProcessToList (some (Process.new "P9" 1)) 2 = some l2 ∧
      (0 : Int) ≤ 2 ∧ (2 : Int) ≤ sampleFragmented.head.length ∧
      l2.head = sampleFragmented.head.take (2 : Int).toNat ++
        r :: sampleFragmented.head.drop (2 : Int).toNat ∧
      r.processNumber = "P9" ∧ r.size = 1 ∧
      r.firstByte = gapStart sampleFragmented.head (2 : Int).toNat ∧
      ((2 : Int) = 0 → r.firstByte = 0) ∧
      ((0 : Int) < 2 → ∃ a : Process, sampleFragmented.head[(2 : Int).toNat - 1]? = some a ∧
        r.firstByte = a.lastByte + 1) ∧
      r.lastByte = r.firstByte + 1 - 1 :=
  addProcessToList_inserts_at_position sampleFragmented "P9" 1 (12 - 1) 2 (by decide)
    (by decide) (by decide)

/-- C7: for every table and every request for which `findSpotInList` returns
-1, the request leaves the memory unchanged (same regions, same addresses,
same order), so the report after the failed request is the report before
it. -/
theorem failed_request_changes_nothing (memory : Memory) (owner : String) (size : Int)
    (hfail : memory.processes.findSpotInList size memory.max = -1) :
    Allocator.allocate memory owner size = some memory ∧
      (Allocator.allocate memory owner size).map Memory.toString = some memory.toString := by
  have h : Allocator.allocate memory owner size = some memory := by
    simp [Allocator.allocate, Memory.findMemorySlot, hfail]
  exact ⟨h, by rw [h]; rfl⟩

theorem failed_request_changes_nothing_witness :
    Allocator.allocate { processes := sampleFull, max := 11 } "P9" 1 =
        some { processes := sampleFull, max := 11 } ∧
      (Allocator.allocate { processes := sampleFull, max := 11 } "P9" 1).map Memory.toString =
        some (Memory.toString { processes := sampleFull, max := 11 }) :=
  failed_request_changes_nothing { processes := sampleFull, max := 11 } "P9" 1 (by decide)

/-- C8: for every table of the data model (regions of size at least 1) and
every name that at least one region has as owner,
`removeProcessByNumber(name, false)` removes exactly the first region in list
order whose owner is `name`, returns the size of that region, and leaves
every other region, later regions of the same owner included, unchanged and
in the same order; `removeProcessFromMemory` then returns `true`. -/
theorem release_removes_first_match (m : Memory) (name : String)
    (hsized : Sized m.processes.head)
    (hex : ∃ r ∈ m.processes.head, r.processNumber = name) :
    ∃ (before : List Process) (r : Process) (after : List Process),
      m.processes.head = before ++ r :: after ∧
      (∀ x ∈ before, x.processNumber ≠ name) ∧ r.processNumber = name ∧
      m.processes.removeProcessByNumber name false =
        (r.size, { head := before ++ after, number := m.processes.number - 1 }) ∧
      m.removeProcessFromMemory name =
        (true, { m with processes :=
          { head := before ++ after, number := m.processes.number - 1 } }) := by
  obtain ⟨before, r, after, h1, h2, h3⟩ := split_first name m.processes.head hex
  have hr : 1 ≤ r.size := hsized r (by rw [h1]; simp)
  obtain ⟨h4, h5⟩ := release_first m name before r after h1 h2 h3 (by omega)
  exact ⟨before, r, after, h1, h2, h3, h4, h5⟩

theorem release_removes_first_match_witness :
    ∃ (before : List Process) (r : Process) (after : List Process),
      sampleDuplicate.head = before ++ r :: after ∧
      (∀ x ∈ before, x.processNumber ≠ "P1") ∧ r.processNumber = "P1" ∧
      sampleDuplicate.removeProcessByNumber "P1" false =
        (r.size, { head := before ++ after, number := sampleDuplicate.number - 1 }) ∧
      Memory.removeProcessFromMemory { processes := sampleDuplicate, max := 11 } "P1" =
        (true, { processes :=
          { head := before ++ after, number := sampleDuplicate.number - 1 }, max := 11 }) :=
  release_removes_first_match { processes := sampleDuplicate, max := 11 } "P1" (by decide)
    ⟨⟨"P1", 3, 2, 4⟩, by decide, rfl⟩

/-- C9: for every table of the data model (regions of size at least 1) and
every name, `removeProcessByNumber(name, false)` returns -1, and
`removeProcessFromMemory` returns `false`, if and only if no region of the
table has that owner; in that case the table is unchanged. -/
theorem release_not_found_iff (m : Memory) (name : String)
    (hsized : Sized m.processes.head) :
    ((m.processes.removeProcessByNumber name false).1 = -1 ↔
        ∀ r ∈ m.processes.head, r.processNumber ≠ name) ∧
      ((m.removeProcessFromMemory name).1 = false ↔
        ∀ r ∈ m.processes.head, r.processNumber ≠ name) ∧
      ((∀ r ∈ m.processes.head, r.processNumber ≠ name) →
        (m.processes.removeProcessByNumber name false).2 = m.processes ∧
          (m.removeProcessFromMemory name).2 = m) := by
  by_cases hex : ∃ r ∈ m.processes.head, r.processNumber = name
  · obtain ⟨before, r, after, h1, h2, h3⟩ := split_first name m.processes.head hex
    have hr : 1 ≤ r.size := hsized r (by rw [h1]; simp)
    obtain ⟨h4, h5⟩ := release_first m name before r after h1 h2 h3 (by omega)
    have hno : ¬ ∀ r ∈ m.processes.head, r.processNumber ≠ name := by
      intro hall
      obtain ⟨x, hx, hn⟩ := hex
      exact hall x hx hn
    refine ⟨⟨?_, fun h => absurd h hno⟩, ⟨?_, fun h => absurd h hno⟩, fun h => absurd h hno⟩
    · intro h
      rw [h4] at h
      simp only at h
      omega
    · intro h
      rw [h5] at h
      exact Bool.noConfusion h
  · have hall : ∀ r ∈ m.processes.head, r.processNumber ≠ name :=
      fun r hr hn => hex ⟨r, hr, hn⟩
    obtain ⟨h4, h5⟩ := release_absent m name hall
    exact ⟨⟨fun _ => hall, fun _ => by rw [h4]⟩, ⟨fun _ => hall, fun _ => by rw [h5]⟩,
      fun _ => ⟨by rw [h4], by rw [h5]⟩⟩

theorem release_not_found_iff_witness :
    ((sampleDuplicate.removeProcessByNumber "P7" false).1 = -1 ↔
        ∀ r ∈ sampleDuplicate.head, r.processNumber ≠ "P7") ∧
      ((Memory.removeProcessFromMemory { processes := sampleDuplicate, max := 11 } "P7").1 =
          false ↔ ∀ r ∈ sampleDuplicate.head, r.processNumber ≠ "P7") ∧
      ((∀ r ∈ sampleDuplicate.head, r.processNumber ≠ "P7") →
        (sampleDuplicate.removeProcessByNumber "P7" false).2 = sampleDuplicate ∧
          (Memory.removeProcessFromMemory { processes := sampleDuplicate, max := 11 } "P7").2 =
            { processes := sampleDuplicate, max := 11 }) :=
  release_not_found_iff { processes := sampleDuplicate, max := 11 } "P7" (by decide)

/-- C10: for every table of the data model in which exactly two regions have
the owner `name`, the first release of `name` succeeds, removes the one with
the lower `firstByte` and keeps the one with the higher `firstByte`, and
every other region, unchanged; a second release of `name` succeeds and
removes that remaining region; afterwards no region has the owner `name` and
a third release reports `false` (not found) and changes nothing. -/
theorem release_duplicate_names (capacity : Int) (m : Memory) (name : String)
    (hinv : TableInv capacity m.processes.head)
    (htwo : m.processes.head.countP (fun r => decide (r.processNumber = name)) = 2) :
    ∃ (before : List Process) (r1 : Process) (mid : List Process) (r2 : Process)
      (after : List Process) (m1 m2 : Memory),
      m.processes.head = before ++ r1 :: mid ++ r2 :: after ∧
      r1.processNumber = name ∧ r2.processNumber = name ∧ r1.firstByte < r2.firstByte ∧
      m.removeProcessFromMemory name = (true, m1) ∧
      m1.processes.head = before ++ mid ++ r2 :: after ∧
      m1.removeProcessFromMemory name = (true, m2) ∧
      m2.processes.head = before ++ mid ++ after ∧
      (∀ r ∈ m2.processes.head, r.processNumber ≠ name) ∧
      m2.removeProcessFromMemory name = (false, m2) := by
  obtain ⟨hsized, _, _, hasc, _⟩ := hinv
  have hex1 : ∃ r ∈ m.processes.head, r.processNumber = name := by
    have hpos : 0 < m.processes.head.countP (fun r => decide (r.processNumber = name)) := by
      omega
    obtain ⟨r, hr, hn⟩ := List.countP_pos_iff.1 hpos
    exact ⟨r, hr, by simpa using hn⟩
  obtain ⟨before, r1, rest, h1, hb, hn1⟩ := split_first name m.processes.head hex1
  have hb0 : before.countP (fun r => decide (r.processNumber = name)) = 0 :=
    List.countP_eq_zero.2 (fun x hx => by simpa using hb x hx)
  have hrest : rest.countP (fun r => decide (r.processNumber = name)) = 1 := by
    rw [h1, List.countP_append, List.countP_cons, hb0] at htwo
    simp only [hn1, decide_True, if_true] at htwo
    omega
  have hex2 : ∃ r ∈ rest, r.processNumber = name := by
    have hpos : 0 < rest.countP (fun r => decide (r.processNumber = name)) := by omega
    obtain ⟨r, hr, hn⟩ := List.countP_pos_iff.1 hpos
    exact ⟨r, hr, by simpa using hn⟩
  obtain ⟨mid, r2, after, h2, hm, hn2⟩ := split_first name rest hex2
  have hm0 : mid.countP (fun r => decide (r.processNumber = name)) = 0 :=
    List.countP_eq_zero.2 (fun x hx => by simpa using hm x hx)
  have hafter : ∀ x ∈ after, x.processNumber ≠ name := by
    rw [h2, List.countP_append, List.countP_cons, hm0] at hrest
    simp only [hn2, decide_True, if_true] at hrest
    have h0 : after.countP (fun r => decide (r.processNumber = name)) = 0 := by omega
    intro x hx
    simpa using List.countP_eq_zero.1 h0 x hx
  have hhead : m.processes.head = before ++ r1 :: (mid ++ r2 :: after) := by rw [h1, h2]
  have hs1 : 1 ≤ r1.size := hsized r1 (by rw [hhead]; simp)
  have hs2 : 1 ≤ r2.size := hsized r2 (by rw [hhead]; simp)
  have hlt : r1.firstByte < r2.firstByte := by
    unfold Ascending at hasc
    rw [hhead] at hasc
    have hp := (List.pairwise_append.1 hasc).2.1
    exact (List.pairwise_cons.1 hp).1 r2 (by simp)
  obtain ⟨_, hrel1⟩ := release_first m name before r1 (mid ++ r2 :: after) hhead hb hn1
    (by omega)
  have hbm : ∀ x ∈ before ++ mid, x.processNumber ≠ name := by
    intro x hx
    rcases List.mem_append.1 hx with hx | hx
    · exact hb x hx
    · exact hm x hx
  obtain ⟨_, hrel2⟩ := release_first
    { m with processes :=
      { head := before ++ (mid ++ r2 :: after), number := m.processes.number - 1 } }
    name (before ++ mid) r2 after (by simp) hbm hn2 (by omega)
  have hnone : ∀ r ∈ before ++ mid ++ after, r.processNumber ≠ name := by
    intro x hx
    rcases List.mem_append.1 hx with hx | hx
    · exact hbm x hx
    · exact hafter x hx
  obtain ⟨_, hrel3⟩ := release_absent
    { m with processes :=
      { head := before ++ mid ++ after, number := m.processes.number - 1 - 1 } }
    name hnone
  exact ⟨before, r1, mid, r2, after, _, _, by rw [hhead]; simp, hn1, hn2, hlt, hrel1,
    by simp, hrel2, rfl, hnone, hrel3⟩

theorem release_duplicate_names_witness :
    ∃ (before : List Process) (r1 : Process) (mid : List Process) (r2 : Process)
      (after : List Process) (m1 m2 : Memory),
      sampleDuplicate.head = before ++ r1 :: mid ++ r2 :: after ∧
      r1.processNumber = "P1" ∧ r2.processNumber = "P1" ∧ r1.firstByte < r2.firstByte ∧
      Memory.removeProcessFromMemory { processes := sampleDuplicate, max := 11 } "P1" =
        (true, m1) ∧
      m1.processes.head = before ++ mid ++ r2 :: after ∧
      m1.removeProcessFromMemory "P1" = (true, m2) ∧
      m2.processes.head = before ++ mid ++ after ∧
      (∀ r ∈ m2.processes.head, r.processNumber ≠ "P1") ∧
      m2.removeProcessFromMemory "P1" = (false, m2) :=
  release_duplicate_names 12 { processes := sampleDuplicate, max := 11 } "P1" (by decide)
    (by decide)

/-- C11: after `compactProcesses` the first region has `firstByte = 0`, every
later region has `firstByte` equal to the `lastByte` of the region before it
plus 1, and every region has `lastByte = firstByte + size - 1`: region `i`
occupies `[s_0 + ... + s_(i-1), s_0 + ... + s_i - 1]` for the sizes `s_j` in
list order, with its owner and size kept.  On the empty table
`compactProcesses` changes nothing.  This holds for every table, in
particular for the non-empty ones whose regions have a size of at least 1. -/
theorem compactProcesses_packs_from_zero (l : LinkedList) (lastByte : Int) :
    (l.head = [] → l.compactProcesses lastByte = l) ∧
    (∀ r, (l.compactProcesses lastByte).head.head? = some r → r.firstByte = 0) ∧
    (l.compactProcesses lastByte).head.Chain' (fun a b => b.firstByte = a.lastByte + 1) ∧
    (∀ r ∈ (l.compactProcesses lastByte).head, r.lastByte = r.firstByte + r.size - 1) ∧
    ∀ (i : Nat) (r : Process), l.head[i]? = some r →
      (l.compactProcesses lastByte).head[i]? =
        some { r with firstByte := sizesBefore l.head i,
                      lastByte := sizesBefore l.head (i + 1) - 1 } := by
  obtain ⟨h1, h2, h3⟩ := shiftFrom_packed l.head 0
  rw [compactProcesses_eq]
  refine ⟨?_, h1, h2, h3, ?_⟩
  · intro he
    cases l
    simp only at he
    simp [he, LinkedList.shiftFrom]
  · intro i r hr
    have := shiftFrom_getElem l.head 0 i r hr
    simpa only [zero_add] using this

/-- C12: `compactProcesses` leaves the list of (owner, size) pairs in list
order exactly unchanged: the number of regions, the owner and the size of
each region and the order of the regions are the same before and after; only
`firstByte` and `lastByte` may change. -/
theorem compactProcesses_keeps_owner_size (l : LinkedList) (lastByte : Int) :
    (l.compactProcesses lastByte).head.map (fun r => (r.processNumber, r.size)) =
        l.head.map (fun r => (r.processNumber, r.size)) ∧
      (l.compactProcesses lastByte).head.length = l.head.length := by
  rw [compactProcesses_eq]
  exact ⟨shiftFrom_owner_size l.head 0, shiftFrom_length l.head 0⟩

/-- C13: applying `compactProcesses` twice yields exactly the same table as
applying it once. -/
theorem compactProcesses_idempotent (l : LinkedList) (lastByte lastByte2 : Int) :
    (l.compactProcesses lastByte).compactProcesses lastByte2 = l.compactProcesses lastByte := by
  rw [compactProcesses_eq, compactProcesses_eq]
  simp only [shiftFrom_idem]

/-- C14: for every table and every capacity of at least 1, in particular
for every table reached from the empty table, the report produced right
after `compactProcesses` consists of one span per region followed by at most
one span labelled Free: a Free span is the last span of the report, ends at
`capacity - 1` and has a length of `capacity` minus the sum of all region
sizes; when the sum of the region sizes is `capacity` there is no Free
span. -/
theorem report_after_compaction (capacity : Int) (l : LinkedList) (lastByte : Int)
    (hcap : 1 ≤ capacity) :
    (l.compactProcesses lastByte).toString (capacity - 1) =
        (l.compactProcesses lastByte).head.map Process.toString ++
          (if (l.head.map Process.size).sum = capacity then []
            else [Span.free (l.head.map Process.size).sum (capacity - 1)]) ∧
    ((l.compactProcesses lastByte).toString (capacity - 1)).countP Span.isFree ≤ 1 ∧
    (∀ s ∈ (l.compactProcesses lastByte).toString (capacity - 1), s.isFree = true →
      ((l.compactProcesses lastByte).toString (capacity - 1)).getLast? = some s ∧
        s.last = capacity - 1 ∧
        s.last - s.first + 1 = capacity - (l.head.map Process.size).sum) ∧
    ((l.head.map Process.size).sum = capacity →
      ∀ s ∈ (l.compactProcesses lastByte).toString (capacity - 1), s.isFree = false) := by
  have hshape := toString_compactProcesses capacity l lastByte hcap
  have hproc := map_toString_isFree (l.compactProcesses lastByte).head
  have hzero : ((l.compactProcesses lastByte).head.map Process.toString).countP Span.isFree = 0 :=
    List.countP_eq_zero.2 (fun s hs => by simp [hproc s hs])
  refine ⟨hshape, ?_, ?_, ?_⟩
  · rw [hshape, List.countP_append, hzero]
    split <;> simp [List.countP_cons, Span.isFree]
  · intro s hs hfree
    rw [hshape] at hs ⊢
    rcases List.mem_append.1 hs with hs | hs
    · rw [hproc s hs] at hfree
      exact Bool.noConfusion hfree
    · by_cases hsum : (l.head.map Process.size).sum = capacity
      · simp [hsum] at hs
      · simp only [if_neg hsum, List.mem_singleton] at hs
        subst hs
        refine ⟨by simp [if_neg hsum, List.getLast?_append], ?_, ?_⟩
        · simp only [Span.last]
        · simp only [Span.last, Span.first]
          omega
  · intro hsum s hs
    rw [hshape, if_pos hsum, List.append_nil] at hs
    exact hproc s hs

theorem report_after_compaction_witness :
    (sampleFragmented.compactProcesses 11).toString (12 - 1) =
        (sampleFragmented.compactProcesses 11).head.map Process.toString ++
          (if (sampleFragmented.head.map Process.size).sum = 12 then []
            else [Span.free (sampleFragmented.head.map Process.size).sum (12 - 1)]) ∧
    ((sampleFragmented.compactProcesses 11).toString (12 - 1)).countP Span.isFree ≤ 1 ∧
    (∀ s ∈ (sampleFragmented.compactProcesses 11).toString (12 - 1), s.isFree = true →
      ((sampleFragmented.compactProcesses 11).toString (12 - 1)).getLast? = some s ∧
        s.last = 12 - 1 ∧
        s.last - s.first + 1 = 12 - (sampleFragmented.head.map Process.size).sum) ∧
    ((sampleFragmented.head.map Process.size).sum = 12 →
      ∀ s ∈ (sampleFragmented.compactProcesses 11).toString (12 - 1), s.isFree = false) :=
  report_after_compaction 12 sampleFragmented 11 (by decide)

/-- C15: with capacity 1048576, starting from the empty table, after the
requests of P0 for 262144, P1 for 262144 and P2 for 262200 bytes the report
is P0 `[0, 262143]`, P1 `[262144, 524287]`, P2 `[524288, 786487]`, Free
`[786488, 1048575]`; after the release of P1 it is exactly the four spans P0
`[0, 262143]`, Free `[262144, 524287]`, P2 `[524288, 786487]`, Free
`[786488, 1048575]`, in that order.  The same holds when the commands are
entered as the lines of the test data. -/
theorem test_data_report_after_release :
    (Allocator.runOps (Memory.new (1048576 - 1))
        [Op.allocate "P0" 262144, Op.allocate "P1" 262144, Op.allocate "P2" 262200]).map
        Memory.toString =
      some [Span.process 0 262143 "P0", Span.process 262144 524287 "P1",
        Span.process 524288 786487 "P2", Span.free 786488 1048575] ∧
    (Allocator.runOps (Memory.new (1048576 - 1))
        [Op.allocate "P0" 262144, Op.allocate "P1" 262144, Op.allocate "P2" 262200,
          Op.release "P1"]).map Memory.toString =
      some [Span.process 0 262143 "P0", Span.free 262144 524287,
        Span.process 524288 786487 "P2", Span.free 786488 1048575] ∧
    (Allocator.serveAll (Memory.new (1048576 - 1))
        ["RQ P0 262144 B", "RQ P1 262144 B", "RQ P2 262200 B", "STAT"]).map Memory.toString =
      some [Span.process 0 262143 "P0", Span.process 262144 524287 "P1",
        Span.process 524288 786487 "P2", Span.free 786488 1048575] ∧
    (Allocator.serveAll (Memory.new (1048576 - 1))
        ["RQ P0 262144 B", "RQ P1 262144 B", "RQ P2 262200 B", "STAT", "RL P1"]).map
        Memory.toString =
      some [Span.process 0 262143 "P0", Span.free 262144 524287,
        Span.process 524288 786487 "P2", Span.free 786488 1048575] := by
  refine ⟨?_, ?_, ?_, ?_⟩ <;> decide

/-- C16: with capacity 1048576, starting from the empty table, after the
requests of P0 for 262144, P1 for 262144 and P2 for 262200 bytes, the release
of P1, the request of P3 for 200000 bytes and a compaction, the table holds
exactly the owners P0, P2, P3 in that list order, contiguous from byte 0 (P0
`[0, 262143]`, P2 `[262144, 524343]`, P3 `[524344, 724343]`), and the report
ends with the single Free span `[724344, 1048575]`.  The same holds when the
commands are entered as lines. -/
theorem test_data_table_after_compaction :
    (Allocator.runOps (Memory.new (1048576 - 1))
        [Op.allocate "P0" 262144, Op.allocate "P1" 262144, Op.allocate "P2" 262200,
          Op.release "P1", Op.allocate "P3" 200000, Op.compact]).map
        (fun m => (m.processes.head, m.toString)) =
      some ([⟨"P0", 262144, 0, 262143⟩, ⟨"P2", 262200, 262144, 524343⟩,
          ⟨"P3", 200000, 524344, 724343⟩],
        [Span.process 0 262143 "P0", Span.process 262144 524343 "P2",
          Span.process 524344 724343 "P3", Span.free 724344 1048575]) ∧
    (Allocator.serveAll (Memory.new (1048576 - 1))
        ["RQ P0 262144 B", "RQ P1 262144 B", "RQ P2 262200 B", "RL P1", "RQ P3 200000 B",
          "C"]).map (fun m => (m.processes.head, m.toString)) =
      some ([⟨"P0", 262144, 0, 262143⟩, ⟨"P2", 262200, 262144, 524343⟩,
          ⟨"P3", 200000, 524344, 724343⟩],
        [Span.process 0 262143 "P0", Span.process 262144 524343 "P2",
          Span.process 524344 724343 "P3", Span.free 724344 1048575]) := by
  refine ⟨?_, ?_⟩ <;> decide

/-- C17: for every startup argument that `stoi` parses to an integer `n`,
`validateArguments` returns 1048576 when `n < 1048576` and `n` when
`n ≥ 1048576`, that is the larger of `n` and 1048576; `run` enters its loop
with the empty table whose last address is that capacity minus 1; and on
this fresh table a slot is found for a size `s` if and only if `s` is at
most the capacity: a request of a positive size `s ≤ capacity` places the
region `[0, s - 1]`, a request of a larger size leaves the table empty. -/
theorem startup_capacity_floor (count : Int) (values : List String) (arg : String) (n : Int)
    (hcount : count ≠ 1) (harg : values[1]? = some arg)
    (hparse : stoi arg = StoiResult.value n) :
    Allocator.validateArguments count values = some (max n 1048576) ∧
    (n < 1048576 → Allocator.validateArguments count values = some 1048576) ∧
    (1048576 ≤ n → Allocator.validateArguments count values = some n) ∧
    Allocator.initialMemory count values = some (Memory.new (max n 1048576 - 1)) ∧
    (∀ s : Int, (Memory.new (max n 1048576 - 1)).findMemorySlot s ≠ -1 ↔ s ≤ max n 1048576) ∧
    (∀ (owner : String) (s : Int), 1 ≤ s → s ≤ max n 1048576 →
      Allocator.allocate (Memory.new (max n 1048576 - 1)) owner s =
        some { processes := { head := [⟨owner, s, 0, s - 1⟩], number := 0 },
               max := max n 1048576 - 1 }) ∧
    (∀ (owner : String) (s : Int), max n 1048576 < s →
      Allocator.allocate (Memory.new (max n 1048576 - 1)) owner s =
        some (Memory.new (max n 1048576 - 1))) := by
  have hhelp : strcmp0 arg "-help" = false := by
    cases h : strcmp0 arg "-help" with
    | false => rfl
    | true =>
        rw [stoi_help arg h] at hparse
        exact StoiResult.noConfusion hparse
  have hval : Allocator.validateArguments count values =
      if n > 1048576 then some n else some 1048576 := by
    simp only [Allocator.validateArguments, if_neg hcount, harg, hhelp, hparse]
    simp
  have hmax : Allocator.validateArguments count values = some (max n 1048576) := by
    rw [hval]
    by_cases h : n > 1048576
    · rw [if_pos h, max_eq_left (by omega)]
    · rw [if_neg h, max_eq_right (by omega)]
  have hge : (1048576 : Int) ≤ max n 1048576 := le_max_right _ _
  refine ⟨hmax, ?_, ?_, ?_, ?_, ?_, ?_⟩
  · intro h
    rw [hmax, max_eq_right (by omega)]
  · intro h
    rw [hmax, max_eq_left h]
  · have h1 : ¬ (max n 1048576 = -1) := by omega
    have h2 : ¬ (max n 1048576 = -2) := by omega
    simp only [Allocator.initialMemory, hmax, if_neg h1, if_neg h2]
  · intro s
    simp only [Memory.findMemorySlot, Memory.new, findSpotInList_empty, sub_add_cancel]
    by_cases h : s ≤ max n 1048576
    · simp [h]
    · simp [h]
  · intro owner s _ h
    exact (allocate_fresh (max n 1048576 - 1) owner s).1 (by omega)
  · intro owner s h
    exact (allocate_fresh (max n 1048576 - 1) owner s).2 (by omega)

theorem startup_capacity_floor_witness :
    Allocator.validateArguments 2 ["./VMapp.exe", "4096"] = some (max 4096 1048576) ∧
    ((4096 : Int) < 1048576 →
      Allocator.validateArguments 2 ["./VMapp.exe", "4096"] = some 1048576) ∧
    ((1048576 : Int) ≤ 4096 →
      Allocator.validateArguments 2 ["./VMapp.exe", "4096"] = some 4096) ∧
    Allocator.initialMemory 2 ["./VMapp.exe", "4096"] =
      some (Memory.new (max 4096 1048576 - 1)) ∧
    (∀ s : Int, (Memory.new (max 4096 1048576 - 1)).findMemorySlot s ≠ -1 ↔
      s ≤ max 4096 1048576) ∧
    (∀ (owner : String) (s : Int), 1 ≤ s → s ≤ max 4096 1048576 →
      Allocator.allocate (Memory.new (max 4096 1048576 - 1)) owner s =
        some { processes := { head := [⟨owner, s, 0, s - 1⟩], number := 0 },
               max := max 4096 1048576 - 1 }) ∧
    (∀ (owner : String) (s : Int), max 4096 1048576 < s →
      Allocator.allocate (Memory.new (max 4096 1048576 - 1)) owner s =
        some (Memory.new (max 4096 1048576 - 1))) :=
  startup_capacity_floor 2 ["./VMapp.exe", "4096"] "4096" 4096 (by decide) (by decide)
    (by decide)

/-- C18: the source at the input line `RL\0x P0` on the table reached by
`RQ P0 5 B`.  The first token `RL\0x` is not one of `RQ`, `RL`, `STAT`, `C`,
`QUIT`, `HELP`, so the line is not a well-formed command and has to leave the
table unchanged; yet `strcmp` on `c_str()` stops at the `'\0'`, the line is
served as `RL P0`, and the region of P0 is released.  The sibling test of
the fourth entry, `result[3].compare("B")`, compares the whole string: the
line `RQ P1 5 B\0x` is rejected and the table kept. -/
theorem unrecognized_keyword_with_nul_is_served :
    Allocator.serveAll (Memory.new 11) ["RQ P0 5 B"] = some sampleServed ∧
    WellSpaced [] ['R', 'L', NUL, 'x'] [([' '], ['P', '0'])] [] ∧
    String.mk ['R', 'L', NUL, 'x'] ∉ ["RQ", "RL", "STAT", "C", "QUIT", "HELP"] ∧
    Allocator.parseUserInput (layoutLine [] ['R', 'L', NUL, 'x'] [([' '], ['P', '0'])] []) =
      [String.mk ['R', 'L', NUL, 'x'], "P0", "", ""] ∧
    Allocator.serve sampleServed (layoutLine [] ['R', 'L', NUL, 'x'] [([' '], ['P', '0'])] []) =
      some ({ processes := { head := [], number := -1 }, max := 11 }, false) ∧
    Allocator.serve sampleServed (layoutLine [] ['R', 'L', NUL, 'x'] [([' '], ['P', '0'])] []) ≠
      some (sampleServed, false) ∧
    Allocator.serve sampleServed
        (layoutLine [] ['R', 'Q'] [([' '], ['P', '1']), ([' '], ['5']), ([' '], ['B', NUL, 'x'])]
          []) =
      some (sampleServed, false) := by
  refine ⟨?_, ?_, ?_, ?_, ?_, ?_, ?_⟩ <;> decide

/-- C20: the source at the input line `STAT\0x y`, made of the two tokens
`STAT\0x` and `y`.  The first token is none of `STAT`, `C`, `QUIT`, `HELP`
and `RL`, so the command consumes up to four tokens and the array has to be
`STAT\0x`, `y` and two empty strings; yet the test for a one entry command,
`strcmp` on `c_str()`, stops at the `'\0'`, and only the first entry is
filled. -/
theorem parseUserInput_keyword_with_nul :
    WellSpaced [] ['S', 'T', 'A', 'T', NUL, 'x'] [([' '], ['y'])] [] ∧
    String.mk ['S', 'T', 'A', 'T', NUL, 'x'] ∉ ["STAT", "C", "QUIT", "HELP", "RL"] ∧
    Allocator.parseUserInput (layoutLine [] ['S', 'T', 'A', 'T', NUL, 'x'] [([' '], ['y'])] []) =
      [String.mk ['S', 'T', 'A', 'T', NUL, 'x'], "", "", ""] ∧
    expectedEntries (tokensOf ['S', 'T', 'A', 'T', NUL, 'x'] [([' '], ['y'])]) =
      [String.mk ['S', 'T', 'A', 'T', NUL, 'x'], "y", "", ""] ∧
    Allocator.parseUserInput (layoutLine [] ['S', 'T', 'A', 'T', NUL, 'x'] [([' '], ['y'])] []) ≠
      expectedEntries (tokensOf ['S', 'T', 'A', 'T', NUL, 'x'] [([' '], ['y'])]) ∧
    Allocator.parseUserInput (layoutLine [] ['F', 'O', 'O', NUL, 'x'] [([' '], ['y'])] []) =
      expectedEntries (tokensOf ['F', 'O', 'O', NUL, 'x'] [([' '], ['y'])]) := by
  refine ⟨?_, ?_, ?_, ?_, ?_, ?_⟩ <;> decide

/-- C19: the source at the input line `RQ P1 12abc B` on the fresh table of
capacity 1048576.  The third token `12abc` is not the decimal representation
of a positive integer, yet `stoi` reads its digits and drops the rest, the
request is not rejected, and the region `[0, 11]` of P1 is in the table
afterwards.  With the third token `-99999999999` the `std::out_of_range` of
`stoi` is not caught and the run ends. -/
theorem request_size_with_trailing_characters :
    stoi "12abc" = StoiResult.value 12 ∧
    Allocator.serve (Memory.new (1048576 - 1)) "RQ P1 12abc B" =
      some ({ processes := { head := [⟨"P1", 12, 0, 11⟩], number := 0 },
              max := 1048576 - 1 }, false) ∧
    Allocator.serve (Memory.new (1048576 - 1)) "RQ P1 12abc B" ≠
      some (Memory.new (1048576 - 1), false) ∧
    stoi "-99999999999" = StoiResult.out_of_range ∧
    Allocator.serve (Memory.new (1048576 - 1)) "RQ P1 -99999999999 B" = none := by
  refine ⟨?_, ?_, ?_, ?_, ?_⟩ <;> decide

/-- C22: for every table with `n` regions and every size, `findSpotInList`
returns either -1 or a position `p` with `0 ≤ p ≤ n`; with such a position
the loop of `addProcessToList` does not step past the last region, so the
call returns (no missing node is dereferenced), and the request of
`Allocator::run` returns for every table, owner and size. -/
theorem allocate_is_total (memory : Memory) (owner : String) (size : Int) :
    (memory.findMemorySlot size = -1 ∨
      (0 ≤ memory.findMemorySlot size ∧
        memory.findMemorySlot size ≤ memory.processes.head.length)) ∧
    (memory.findMemorySlot size ≠ -1 →
      ∃ l2 : LinkedList,
        memory.processes.addProcessToList (some (Process.new owner size))
          (memory.findMemorySlot size) = some l2 ∧
        l2.head.length = memory.processes.head.length + 1) ∧
    ∃ m2 : Memory, Allocator.allocate memory owner size = some m2 := by
  have hr := findSpotInList_range memory.processes size memory.max
  have hadd : memory.findMemorySlot size ≠ -1 →
      ∃ l2 : LinkedList,
        memory.processes.addProcessToList (some (Process.new owner size))
          (memory.findMemorySlot size) = some l2 ∧
        l2.head.length = memory.processes.head.length + 1 := by
    intro hne
    rcases hr with h | ⟨h0, hn⟩
    · exact absurd h hne
    · obtain ⟨i, hi⟩ := Int.eq_ofNat_of_zero_le h0
      have hi2 : memory.findMemorySlot size = (i : Int) := hi
      have hin : i ≤ memory.processes.head.length := by
        have : ((i : Nat) : Int) ≤ memory.processes.head.length := by rw [← hi]; exact hn
        omega
      obtain ⟨l2, hl2, hshape⟩ := addProcessToList_shape memory.processes owner size i hin
      refine ⟨l2, by rw [hi2]; exact hl2, ?_⟩
      rw [hshape]
      simp only [List.length_append, List.length_cons, List.length_take, List.length_drop]
      omega
  refine ⟨hr, hadd, ?_⟩
  unfold Allocator.allocate
  simp only []
  by_cases hs : memory.findMemorySlot size = -1
  · exact ⟨memory, by rw [if_pos hs]⟩
  · obtain ⟨l2, hl2, _⟩ := hadd hs
    exact ⟨{ memory with processes := l2 }, by
      rw [if_neg hs]
      simp only [Memory.addProcessToMemory, hl2, Option.map_some']⟩

/-- C21: for every table of the data model, and so for every table reached
from the empty table by valid commands, the report `toString(capacity - 1)`
contains exactly one span per region, in list order, each a process span
labelled with the owner `processNumber` of the region and with its bounds
`[firstByte, lastByte]`, and exactly one
Free span per maximal free gap, that is one for each of the gaps at the
positions `0 .. n` that is not empty, over the addresses of that gap; every
reported span is non-empty (`first ≤ last`), no two consecutive spans are
both labelled Free, and each span starts right behind the one before it. -/
theorem report_spans_regions_and_gaps (capacity : Int) (l : LinkedList) (hcap : 1 ≤ capacity)
    (h : TableInv capacity l.head ∨
      ∃ ops : List Op, (∀ op ∈ ops, ValidOp op) ∧
        (Allocator.runOps (Memory.new (capacity - 1)) ops).map Memory.processes = some l) :
    (l.toString (capacity - 1)).filter (fun s => !s.isFree) =
      l.head.map (fun r => Span.process r.firstByte r.lastByte r.processNumber) ∧
    (l.toString (capacity - 1)).filter Span.isFree = expectedFreeSpans l.head (capacity - 1) ∧
    (∀ s ∈ l.toString (capacity - 1), s.first ≤ s.last) ∧
    (l.toString (capacity - 1)).Chain' (fun a b => ¬ (a.isFree = true ∧ b.isFree = true)) ∧
    (l.toString (capacity - 1)).Chain' (fun s u => u.first = s.last + 1) := by
  have hinv : TableInv capacity l.head := by
    rcases h with h | ⟨ops, hv, hr⟩
    · exact h
    · obtain ⟨m, hm, _, hi⟩ := runOps_tableInv capacity hcap ops hv
      rw [hm] at hr
      simp only [Option.map_some', Option.some.injEq] at hr
      rw [← hr]
      exact hi
  have hc := tableInv_chainFrom capacity l.head (by omega) hinv
  have htiles := toString_tiles (capacity - 1) l (by omega) hc
  refine ⟨?_, ?_, tiles_nonempty (capacity - 1) _ 0 htiles, ?_,
    tiles_chain (capacity - 1) _ 0 htiles⟩
  · rw [toString_eq_printFrom capacity l hcap]
    have hlabel : (fun r : Process => Span.process r.firstByte r.lastByte r.processNumber) =
        Process.toString := rfl
    rw [hlabel]
    exact printFrom_processes (capacity - 1) l.head 0
  · rw [toString_eq_printFrom capacity l hcap]
    exact printFrom_free_spans (capacity - 1) l.head hc
  · rw [toString_eq_printFrom capacity l hcap]
    exact printFrom_no_double_free (capacity - 1) l.head 0

theorem report_spans_regions_and_gaps_witness :
    (sampleFragmented.toString (12 - 1)).filter (fun s => !s.isFree) =
        sampleFragmented.head.map
          (fun r => Span.process r.firstByte r.lastByte r.processNumber) ∧
    (sampleFragmented.toString (12 - 1)).filter Span.isFree =
        expectedFreeSpans sampleFragmented.head (12 - 1) ∧
    (∀ s ∈ sampleFragmented.toString (12 - 1), s.first ≤ s.last) ∧
    (sampleFragmented.toString (12 - 1)).Chain'
      (fun a b => ¬ (a.isFree = true ∧ b.isFree = true)) ∧
    (sampleFragmented.toString (12 - 1)).Chain' (fun s u => u.first = s.last + 1) :=
  report_spans_regions_and_gaps 12 sampleFragmented (by decide) (Or.inl (by decide))

/-- C23: for every table of the data model, and so for every table reached
from the empty table by valid commands (capacity an `int` of at least 1),
and every size of at least 1: right after a compaction, a slot is found for
the request if and only if `size` is at most `capacity` minus the sum of the
sizes of all regions; the slot is then the position behind the last region,
and the request adds the new region behind all others with `firstByte` equal
to the sum of the sizes and `lastByte = firstByte + size - 1`; a larger
request leaves the compacted table as it is. -/
theorem allocate_after_compaction (capacity size : Int) (m : Memory) (owner : String)
    (hcap1 : 1 ≤ capacity) (hcap : capacity ≤ INT_MAX) (hsize : 1 ≤ size)
    (h : (m.max = capacity - 1 ∧ TableInv capacity m.processes.head) ∨
      ∃ ops : List Op, (∀ op ∈ ops, ValidOp op) ∧
        Allocator.runOps (Memory.new (capacity - 1)) ops = some m) :
    ((m.compactMemory m.max).findMemorySlot size ≠ -1 ↔
      size ≤ capacity - (m.processes.head.map Process.size).sum) ∧
    (size ≤ capacity - (m.processes.head.map Process.size).sum →
      (m.compactMemory m.max).findMemorySlot size = m.processes.head.length ∧
      ∃ m2 : Memory, Allocator.allocate (m.compactMemory m.max) owner size = some m2 ∧
        m2.processes.head = (m.compactMemory m.max).processes.head ++
          [⟨owner, size, (m.processes.head.map Process.size).sum,
            (m.processes.head.map Process.size).sum + size - 1⟩]) ∧
    (capacity - (m.processes.head.map Process.size).sum < size →
      Allocator.allocate (m.compactMemory m.max) owner size =
        some (m.compactMemory m.max)) := by
  have hm : m.max = capacity - 1 ∧ TableInv capacity m.processes.head := by
    rcases h with h | ⟨ops, hv, hr⟩
    · exact h
    · obtain ⟨m1, hm1, hmax, hi⟩ := runOps_tableInv capacity hcap1 ops hv
      rw [hm1] at hr
      simp only [Option.some.injEq] at hr
      rw [← hr]
      exact ⟨hmax, hi⟩
  obtain ⟨hmax, hinv⟩ := hm
  have hc := tableInv_chainFrom capacity m.processes.head (by omega) hinv
  have hmc : m.compactMemory m.max =
      { processes := { m.processes with head := LinkedList.shiftFrom m.processes.head 0 },
        max := capacity - 1 } := by
    simp only [Memory.compactMemory, compactProcesses_eq, hmax]
  rw [hmc]
  have hcc : ChainFrom (capacity - 1) 0 (LinkedList.shiftFrom m.processes.head 0) :=
    shiftFrom_chain (capacity - 1) m.processes.head 0
      (fun r hr => (chainFrom_mem _ _ _ hc r hr).2.2.1) (chainFrom_sizes _ _ _ hc)
  have hinvc := chainFrom_tableInv capacity _ hcc
  have hlen := shiftFrom_length m.processes.head 0
  obtain ⟨hzero, hlast, hstart⟩ := gaps_compacted (capacity - 1) m.processes.head
  have hlast2 : gapSize (LinkedList.shiftFrom m.processes.head 0) (capacity - 1)
      m.processes.head.length = capacity - (m.processes.head.map Process.size).sum := by
    rw [hlast]
    omega
  have hslot : (size ≤ capacity - (m.processes.head.map Process.size).sum →
        LinkedList.findSpotInList
          { m.processes with head := LinkedList.shiftFrom m.processes.head 0 } size
          (capacity - 1) = m.processes.head.length) ∧
      (capacity - (m.processes.head.map Process.size).sum < size →
        LinkedList.findSpotInList
          { m.processes with head := LinkedList.shiftFrom m.processes.head 0 } size
          (capacity - 1) = -1) := by
    rcases findSpotInList_cases capacity size
        { m.processes with head := LinkedList.shiftFrom m.processes.head 0 } hcap hinvc hsize with
      ⟨he, hno⟩ | ⟨i, hi, he, hfit, _, _⟩
    · have h1 := hno m.processes.head.length (by simp only [hlen]; exact le_refl _)
      simp only [hlast2] at h1
      exact ⟨fun hle => by omega, fun _ => he⟩
    · simp only [hlen] at hi
      have hin : i = m.processes.head.length := by
        by_contra hne
        have hz := hzero i (by omega)
        simp only [hz] at hfit
        omega
      subst hin
      simp only [hlast2] at hfit
      exact ⟨fun _ => he, fun hlt => by omega⟩
  refine ⟨?_, ?_, ?_⟩
  · show LinkedList.findSpotInList _ size (capacity - 1) ≠ -1 ↔ _
    constructor
    · intro hne
      by_contra hgt
      exact hne (hslot.2 (by omega))
    · intro hle
      rw [hslot.1 hle]
      omega
  · intro hle
    have hfind := hslot.1 hle
    refine ⟨hfind, ?_⟩
    obtain ⟨l2, hadd, hshape⟩ := addProcessToList_shape
      { m.processes with head := LinkedList.shiftFrom m.processes.head 0 } owner size
      m.processes.head.length (by simp only [hlen]; exact le_refl _)
    refine ⟨{ processes := l2, max := capacity - 1 }, ?_, ?_⟩
    · have hne : ¬ ((m.processes.head.length : Int) = -1) := by omega
      simp only [Allocator.allocate, Memory.findMemorySlot, hfind, if_neg hne,
        Memory.addProcessToMemory, hadd, Option.map_some']
    · simp only [hshape]
      rw [List.take_of_length_le (by rw [hlen]), List.drop_of_length_le (by rw [hlen])]
      simp only [placed, hstart]
  · intro hlt
    simp only [Allocator.allocate, Memory.findMemorySlot, hslot.2 hlt, if_true]

theorem allocate_after_compaction_witness :
    ((sampleMemory.compactMemory sampleMemory.max).findMemorySlot 3 ≠ -1 ↔
      (3 : Int) ≤ 12 - (sampleMemory.processes.head.map Process.size).sum) ∧
    ((3 : Int) ≤ 12 - (sampleMemory.processes.head.map Process.size).sum →
      (sampleMemory.compactMemory sampleMemory.max).findMemorySlot 3 =
        sampleMemory.processes.head.length ∧
      ∃ m2 : Memory,
        Allocator.allocate (sampleMemory.compactMemory sampleMemory.max) "P9" 3 = some m2 ∧
        m2.processes.head = (sampleMemory.compactMemory sampleMemory.max).processes.head ++
          [⟨"P9", 3, (sampleMemory.processes.head.map Process.size).sum,
            (sampleMemory.processes.head.map Process.size).sum + 3 - 1⟩]) ∧
    (12 - (sampleMemory.processes.head.map Process.size).sum < (3 : Int) →
      Allocator.allocate (sampleMemory.compactMemory sampleMemory.max) "P9" 3 =
        some (sampleMemory.compactMemory sampleMemory.max)) :=
  allocate_after_compaction 12 3 sampleMemory "P9" (by decide) (by decide) (by decide)
    (Or.inl (by decide))
